import Mathlib

/-!
Verification development for the topic-aggregation subsystem of the
stock-json repository (scripts/generate_topics.py).

The Python source is shallowly embedded below.  Raw document text is
modelled as a list of characters; a document is split into lines (on the
newline character, keeping empty pieces, exactly like the Python
str.split) and the regex-driven section/heading scanning of the source is
reproduced as explicit total functions on those lines.  Python dictionaries
become association lists with first-match lookup and in-place overwrite on
insert; Python sets become duplicate-free insertion-ordered lists (every
use in the source either tests membership, unions, or sorts, so insertion
order is never observable in the program output).
-/

namespace StockTopics

/-- Characters matched by the Python regex class backslash-s on str
(ASCII range, which covers every character the scripts compare against). -/
def isSpaceChar (c : Char) : Bool :=
  c == ' ' || c == '\t' || c == '\n' || c == '\r' || c == '\x0b' || c == '\x0c'

/-- Python str.lstrip on a character list. -/
def pyLStripCL (l : List Char) : List Char :=
  l.dropWhile (fun c => isSpaceChar c)

/-- Python str.strip on a character list. -/
def pyStripCL (l : List Char) : List Char :=
  ((pyLStripCL l).reverse.dropWhile (fun c => isSpaceChar c)).reverse

/-- Python str.split on the newline character: every occurrence splits,
empty pieces are kept, so the result is always nonempty. -/
def splitLinesCL : List Char → List (List Char)
  | [] => [[]]
  | c :: rest =>
    if c = '\n' then [] :: splitLinesCL rest
    else
      match splitLinesCL rest with
      | [] => [[c]]
      | l :: ls => (c :: l) :: ls

/-- Python str.join with a newline separator (line 57 / 89 of the source). -/
def joinNL : List (List Char) → List Char
  | [] => []
  | [l] => l
  | l :: ls => l ++ '\n' :: joinNL ls

/-- A line is blank when it strips to nothing (line.strip() == ''). -/
def isBlankCL (l : List Char) : Bool :=
  (pyStripCL l).isEmpty

def strCL (l : List Char) : String :=
  String.mk l

/-- One parsed topic mention: the accumulated comment and the attached
topic names, in encounter order (the attached value of the source). -/
structure Mention where
  comment : String
  attached : List String
deriving DecidableEq, Repr

/-- Python re.match of the third-level-heading pattern (hash hash hash,
then one or more whitespace characters, then at least one character) on a
single line, returning the stripped group.  A line contains no newline, so
the whitespace run cannot leave the line; the match succeeds exactly when
the text after the three markers starts with whitespace and has length at
least two, and stripping the group equals stripping that whole text. -/
def topicHeadOf : List Char → Option String
  | '#' :: '#' :: '#' :: c :: rest =>
    if isSpaceChar c ∧ rest ≠ [] then some (strCL (pyStripCL (c :: rest))) else none
  | _ => none

/-- Python re.match of the dash list-item pattern (dash, one or more
whitespace characters, at least one character) on a single line, returning
the stripped group. -/
def dashItemOf : List Char → Option String
  | '-' :: c :: rest =>
    if isSpaceChar c ∧ rest ≠ [] then some (strCL (pyStripCL (c :: rest))) else none
  | _ => none

/-- Association-list lookup with Python dict semantics (keys are unique by
construction, first match wins). -/
def dictGet {β : Type} : List (String × β) → String → Option β
  | [], _ => none
  | (k, v) :: t, k' => if k' = k then some v else dictGet t k'

/-- Association-list insert with Python dict semantics: overwrite in place
when the key is present, append otherwise. -/
def dictInsert {β : Type} : List (String × β) → String → β → List (String × β)
  | [], k, v => [(k, v)]
  | (a, b) :: t, k, v =>
    if a = k then (k, v) :: t else (a, b) :: dictInsert t k v

def dictGetD {β : Type} (d : List (String × β)) (k : String) (dflt : β) : β :=
  (dictGet d k).getD dflt

/-- Python defaultdict-style access-and-update: read the entry (or the
default), transform it, store it back. -/
def dictUpdate {β : Type} (d : List (String × β)) (k : String) (dflt : β)
    (f : β → β) : List (String × β) :=
  dictInsert d k (f (dictGetD d k dflt))

/-- State of the per-section topic loop (lines 45 to 84 of the source).
The Python variable current_topic holds None or a string and is only ever
tested for truthiness, so None and the empty string behave identically;
it is modelled as a plain string with the empty string for None. -/
structure TState where
  cur : String
  attached : List String
  content : List (List Char)
  inList : Bool
  dict : List (String × Mention)
deriving Repr

/-- Saving the current mention (lines 55 to 59 and 87 to 91): nothing is
stored when current_topic is falsy. -/
def saveCur (st : TState) : List (String × Mention) :=
  if st.cur ≠ "" then
    dictInsert st.dict st.cur ⟨strCL (pyStripCL (joinNL st.content)), st.attached⟩
  else st.dict

/-- One step of the line classification loop over a topics-section body
(lines 50 to 84 of the source). -/
def stepLine (st : TState) (l : List Char) : TState :=
  match topicHeadOf l with
  | some name =>
    { cur := name, attached := [], content := [], inList := false, dict := saveCur st }
  | none =>
    if st.cur ≠ "" then
      match dashItemOf l with
      | some item =>
        { st with
          attached := if item ≠ "" then st.attached ++ [item] else st.attached,
          inList := true }
      | none =>
        if isBlankCL l then
          if st.inList then { st with inList := false }
          else { st with content := st.content ++ [l] }
        else
          if st.inList then st else { st with content := st.content ++ [l] }
    else st

/-- Processing the body of one topics section: fresh per-section state,
final save, threading the shared topics dictionary. -/
def processBody (dict : List (String × Mention)) (body : List (List Char)) :
    List (String × Mention) :=
  saveCur (body.foldl stepLine ⟨"", [], [], false, dict⟩)

/-- Does the second-level-section pattern (hash hash, then one or more
whitespace characters) match at the start of this line?  When nothing
follows the two markers on the line, the newline that separates it from a
following line is itself whitespace, so the pattern still matches exactly
when another line follows. -/
def secMatch (l : List Char) (hasMore : Bool) : Bool :=
  match l with
  | '#' :: '#' :: rest =>
    match rest with
    | [] => hasMore
    | c :: _ => isSpaceChar c
  | _ => false

/-- Scanner for the multiline regex split on the second-level-section
pattern (line 34 of the source).  The first argument is the remaining
lines; the second is the current piece in normal scanning mode (lines
accumulated in reverse), or none while the greedy whitespace run of a
match is still being consumed across line boundaries.  Each produced
piece is represented the way the source immediately re-splits it on
newlines: a piece that is terminated by a following match ends with the
newline just before that match, hence gains a trailing empty line. -/
def splitScan : List (List Char) → Option (List (List Char)) → List (List (List Char))
  | [], some rev => [rev.reverse]
  | [], none => [[[]]]
  | l :: ls, some rev =>
    if secMatch l (ls ≠ []) then
      (rev.reverse ++ [[]]) ::
        (let r' := pyLStripCL (l.drop 2)
         if r' = [] then splitScan ls none else splitScan ls (some [r']))
    else splitScan ls (some (l :: rev))
  | l :: ls, none =>
    let l' := pyLStripCL l
    if l' = [] then splitScan ls none
    else if l' = l then
      if secMatch l (ls ≠ []) then
        [[]] ::
          (let r' := pyLStripCL (l.drop 2)
           if r' = [] then splitScan ls none else splitScan ls (some [r']))
      else splitScan ls (some [l])
    else splitScan ls (some [l'])

/-- The pieces produced by the regex split of the document into
second-level sections, each piece already split into its lines. -/
def sectionsOf (content : List Char) : List (List (List Char)) :=
  splitScan (splitLinesCL content) (some [])

/-- The reserved topics-section label. -/
def reservedLabel : List Char := "题材".toList

/-- Processing one section piece (lines 36 to 91): blank pieces are
skipped, only a piece whose first line strips to the reserved label is
scanned for mentions. -/
def processSection (dict : List (String × Mention)) (sec : List (List Char)) :
    List (String × Mention) :=
  if sec.all (fun l => isBlankCL l) then dict
  else if pyStripCL (sec.headD []) = reservedLabel then processBody dict sec.tail
  else dict

/-- The topic mapping extracted from one document's text. -/
def parseTopicsCL (content : List Char) : List (String × Mention) :=
  (sectionsOf content).foldl processSection []

/-- First line of following lines that contains a non-whitespace character. -/
def firstNonBlank : List (List Char) → Option (List Char)
  | [] => none
  | l :: ls => if pyLStripCL l = [] then firstNonBlank ls else some l

/-- Python re.search of the first-level-heading pattern (hash, one or more
whitespace characters, one or more non-newline characters, line end)
evaluated at one candidate line, given the lines that follow it.  The
greedy whitespace run may cross newlines: when the candidate line carries
no non-whitespace text after the marker the captured group comes from the
first following line that has any, and when even that fails the engine
backtracks to capture a single whitespace character (possible exactly when
some non-newline whitespace sits after the first character of the run),
which strips to the empty name. -/
def h1NameAt (l : List Char) (rest : List (List Char)) : Option String :=
  match l with
  | '#' :: r =>
    if (match r with | c :: _ => isSpaceChar c | [] => !rest.isEmpty) then
      let r' := pyLStripCL r
      if r' ≠ [] then some (strCL (pyStripCL r'))
      else
        match firstNonBlank rest with
        | some m => some (strCL (pyStripCL m))
        | none =>
          if 2 ≤ r.length ∨ rest.any (fun m => !m.isEmpty) then some "" else none
    else none
  | _ => none

/-- The first line (in document order) where the first-level-heading
search succeeds, with its captured stripped group. -/
def findH1 : List (List Char) → Option String
  | [] => none
  | l :: ls =>
    match h1NameAt l ls with
    | some n => some n
    | none => findH1 ls

/-- Shallow embedding of parse_markdown_file (lines 13 to 93): from the
document storage name (the filename stem, used as fallback identifier) and
the raw text, produce the stock identifier and the topic mapping. -/
def parseMarkdownFile (stem : String) (content : String) :
    String × List (String × Mention) :=
  ((findH1 (splitLinesCL content.toList)).getD stem, parseTopicsCL content.toList)

/-! The corpus aggregator, collect_all_topics (lines 96 to 165).  Its
input is the sequence of successfully parsed documents in discovery order,
each carrying the parsed identifier, the parsed topic mapping and the
source path relative to the scanned directory. -/

/-- One parsed document as consumed by the aggregation loop. -/
structure PDoc where
  name : String
  topics : List (String × Mention)
  path : String
deriving DecidableEq, Repr

/-- Python set.add on the insertion-ordered duplicate-free list model. -/
def setInsert (l : List String) (x : String) : List String :=
  if x ∈ l then l else l ++ [x]

/-- Python substring containment (the in operator on str), as a prefix
search at every suffix; the empty needle is contained in everything. -/
def isPrefixCL : List Char → List Char → Bool
  | [], _ => true
  | _ :: _, [] => false
  | a :: as, b :: bs => a == b && isPrefixCL as bs

def pyInCL (n : List Char) : List Char → Bool
  | [] => isPrefixCL n []
  | l@(_ :: t) => isPrefixCL n l || pyInCL n t

def pyIn (n h : String) : Bool :=
  pyInCL n.toList h.toList

/-- The comment-merge rule (lines 132 to 137): a non-empty incoming
comment replaces an empty accumulated one; otherwise it is appended after
a newline unless it already occurs inside the accumulated text (Python in,
a substring test). -/
def mergeComment (old c : String) : String :=
  if c ≠ "" ∧ old = "" then c
  else if c ≠ "" ∧ ¬ pyIn c old then old ++ "\n" ++ c
  else old

/-- Accumulating per-main-topic record during the fold (line 108). -/
structure MTAcc where
  stocks : List String
  comment : String
  stockAttached : List (String × List String)
deriving DecidableEq, Repr

def defaultMT : MTAcc := ⟨[], "", []⟩

/-- The aggregation state: the four module-level dictionaries of
collect_all_topics. -/
structure AggState where
  mainTopics : List (String × MTAcc)
  attachedToMain : List (String × List String)
  attachedToStocks : List (String × List String)
  stockToPath : List (String × String)
deriving DecidableEq, Repr

def emptyAgg : AggState := ⟨[], [], [], []⟩

/-- Inner loop over one mention's attached names (lines 140 to 144):
empty names are skipped, otherwise the per-stock attached set under the
main topic and the two reverse mappings are each extended. -/
def foldAttached (stock t : String) (st : AggState) (a : String) : AggState :=
  if a ≠ "" then
    { st with
      mainTopics :=
        dictUpdate st.mainTopics t defaultMT fun mt =>
          { mt with
            stockAttached :=
              dictUpdate mt.stockAttached stock [] fun s => setInsert s a },
      attachedToMain := dictUpdate st.attachedToMain a [] fun s => setInsert s t,
      attachedToStocks := dictUpdate st.attachedToStocks a [] fun s => setInsert s stock }
  else st

/-- Folding one (main topic, mention) pair of one document (lines 129 to
144): record the stock, merge the comment, then fold the attached names. -/
def foldMention (stock : String) (st : AggState) (p : String × Mention) : AggState :=
  let st1 : AggState :=
    { st with
      mainTopics := dictUpdate st.mainTopics p.1 defaultMT
        (fun mt =>
          { mt with stocks := setInsert mt.stocks stock,
                    comment := mergeComment mt.comment p.2.comment }) }
  p.2.attached.foldl (foldAttached stock p.1) st1

/-- Folding one parsed document (lines 122 to 144): record its source
path (last write wins on identifier collision), then fold its mentions. -/
def foldDoc (st : AggState) (d : PDoc) : AggState :=
  d.topics.foldl (foldMention d.name)
    { st with stockToPath := dictInsert st.stockToPath d.name d.path }

/-- Lexicographic code-point comparison of character lists: the order by
which Python sorted compares strings.  A computable Boolean so that the
whole pipeline evaluates; it is proved below to agree with the string
linear order. -/
def leCL : List Char → List Char → Bool
  | [], _ => true
  | _ :: _, [] => false
  | a :: as, b :: bs => if a = b then leCL as bs else decide (a < b)

def strLeB (a b : String) : Bool :=
  leCL a.data b.data

/-- Python sorted on strings: stable ascending sort, lexicographic by
code points (insertion sort is stable, and on the duplicate-free string
lists the program sorts, any stable algorithm gives the same output). -/
def sortStr (l : List String) : List String :=
  l.insertionSort (fun a b => strLeB a b = true)

/-- Union of all per-stock attached sets (lines 157 to 159). -/
def unionAll (sa : List (String × List String)) : List String :=
  sa.foldl (fun acc p => p.2.foldl setInsert acc) []

/-- The finalized per-main-topic record in the aggregator's output. -/
structure MTOut where
  stocks : List String
  comment : String
  attached : List String
deriving DecidableEq, Repr

/-- Finalization of one main topic (lines 151 to 163): sort the stocks,
and when any per-stock attached set exists sort the union of them all. -/
def finalizeMT (mt : MTAcc) : MTOut :=
  ⟨sortStr mt.stocks, mt.comment,
    if mt.stockAttached.isEmpty then [] else sortStr (unionAll mt.stockAttached)⟩

/-- The aggregator's four outputs. -/
structure AggOut where
  mainTopics : List (String × MTOut)
  attachedToMain : List (String × List String)
  attachedToStocks : List (String × List String)
  stockToPath : List (String × String)
deriving DecidableEq, Repr

/-- Shallow embedding of collect_all_topics (lines 96 to 165) on the
sequence of parsed documents in discovery order. -/
def collectAllTopics (docs : List PDoc) : AggOut :=
  let st := docs.foldl foldDoc emptyAgg
  ⟨st.mainTopics.map (fun p => (p.1, finalizeMT p.2)),
    st.attachedToMain, st.attachedToStocks, st.stockToPath⟩

/-! The cross-link renderer (lines 168 to 238).  File writing is out of
scope; the embedded functions produce the exact text written for one
main-topic and one attached-topic document. -/

/-- Python str.replace for a single-character pattern and replacement. -/
def pyReplaceChar (s : String) (a b : Char) : String :=
  String.mk (s.toList.map (fun c => if c = a then b else c))

/-- The fragment anchor derived from the topic name (line 190): spaces
replaced by dashes, then underscores replaced by dashes. -/
def anchorOf (t : String) : String :=
  pyReplaceChar (pyReplaceChar t ' ' '-') '_' '-'

/-- One line of the stock list in a main-topic document (lines 183 to
194): a relative link with the topic anchor when the locator knows the
stock, plain text otherwise. -/
def stockLine (t : String) (stp : List (String × String)) (stock : String) : String :=
  match dictGet stp stock with
  | some p => "- [" ++ stock ++ "](../../stocks/" ++ p ++ "#" ++ anchorOf t ++ ")\n"
  | none => "- " ++ stock ++ "\n"

/-- The full text of one main-topic document (generate_main_topic_file,
lines 168 to 205, up to the file write). -/
def mainTopicContent (t : String) (info : MTOut) (stp : List (String × String)) :
    String :=
  "# " ++ t ++ "\n\n"
    ++ (if info.stocks.isEmpty then ""
        else "## 股票列表\n\n" ++ String.join (info.stocks.map (stockLine t stp)) ++ "\n")
    ++ (if info.attached.isEmpty then ""
        else "## 附带题材\n\n"
          ++ String.join (info.attached.map
              (fun a => "- [" ++ a ++ "](../附带题材/" ++ a ++ ".md)\n"))
          ++ "\n")

/-- One line of the related-stock list in an attached-topic document
(lines 229 to 235): same locator rule, fixed reserved fragment. -/
def attachedStockLine (stp : List (String × String)) (stock : String) : String :=
  match dictGet stp stock with
  | some p => "- [" ++ stock ++ "](../../stocks/" ++ p ++ "#题材)\n"
  | none => "- " ++ stock ++ "\n"

/-- The full text of one attached-topic document
(generate_attached_topic_file, lines 208 to 238, up to the file write).
The two set arguments arrive as insertion-ordered lists and are sorted
exactly where the source sorts them. -/
def attachedTopicContent (a : String) (mts sts : List String)
    (stp : List (String × String)) : String :=
  "# " ++ a ++ "\n\n"
    ++ (if mts.isEmpty then ""
        else "## 相关主题材\n\n"
          ++ String.join ((sortStr mts).map
              (fun m => "- [" ++ m ++ "](../主题材/" ++ m ++ ".md)\n"))
          ++ "\n")
    ++ (if sts.isEmpty then ""
        else "## 相关股票\n\n"
          ++ String.join ((sortStr sts).map (attachedStockLine stp)))

/-! Getters over the aggregation state and output, and the source-level
characterization predicates the claims quantify over. -/

/-- The accumulating record of one main topic (the defaultdict read). -/
def mtAcc (st : AggState) (t : String) : MTAcc :=
  dictGetD st.mainTopics t defaultMT

/-- The intermediate aggregation state after folding a document list. -/
def foldState (docs : List PDoc) : AggState :=
  docs.foldl foldDoc emptyAgg

/-- The finalized record of one main topic in the aggregator output,
with the empty record for an unknown topic name. -/
def getMT (o : AggOut) (t : String) : MTOut :=
  dictGetD o.mainTopics t ⟨[], "", []⟩

/-- The related-main-topic set of one attached topic in the output. -/
def getATM (o : AggOut) (a : String) : List String :=
  dictGetD o.attachedToMain a []

/-- The related-stock set of one attached topic in the output. -/
def getATS (o : AggOut) (a : String) : List String :=
  dictGetD o.attachedToStocks a []

/-- Some entry of a per-stock attached-set dictionary contains the name. -/
def saMem (sa : List (String × List String)) (x : String) : Prop :=
  ∃ p ∈ sa, x ∈ p.2

/-- Document x mentions main topic t: x is the identifier of a document
one of whose topic entries is keyed t. -/
def MentionsTopic (docs : List PDoc) (t x : String) : Prop :=
  ∃ d ∈ docs, x = d.name ∧ ∃ p ∈ d.topics, p.1 = t

/-- Some document carries attached name a (non-empty, as the aggregation
loop skips empty names) under a mention of main topic t. -/
def HasAttached (docs : List PDoc) (t a : String) : Prop :=
  ∃ d ∈ docs, ∃ p ∈ d.topics, p.1 = t ∧ a ∈ p.2.attached ∧ a ≠ ""

/-- Document named x carries attached name a under some mention. -/
def StockHasAttached (docs : List PDoc) (a x : String) : Prop :=
  ∃ d ∈ docs, x = d.name ∧ ∃ p ∈ d.topics, a ∈ p.2.attached ∧ a ≠ ""

/-- The comments of all mentions of topic t inside one topic mapping, in
encounter order. -/
def commentsOfDoc (t : String) (tps : List (String × Mention)) : List String :=
  (tps.filter (fun p => p.1 = t)).map (fun p => p.2.comment)

/-- The comments of all mentions of topic t across a document sequence,
in fold order. -/
def commentsOf (docs : List PDoc) (t : String) : List String :=
  (docs.map (fun d => commentsOfDoc t d.topics)).flatten

/-- The comment-merge rule exactly as claim C1 words it: the first
non-empty comment wins and a later non-empty comment is appended after a
line break whenever it differs from the already-merged text, only an
exact duplicate of the whole merged text being skipped. -/
def mergeCommentClaimed (old c : String) : String :=
  if c = "" then old
  else if old = "" then c
  else if c = old then old
  else old ++ "\n" ++ c

/-- The comment-merge rule as amended: a later non-empty comment is
skipped whenever it already occurs as a contiguous substring of the
merged commentary, and appended after a line break otherwise. -/
def mergeCommentSpec (old c : String) : String :=
  if c = "" then old
  else if old = "" then c
  else if pyIn c old then old
  else old ++ "\n" ++ c

/-- The comment lines of a mention body as amended claim C2 words it:
walking the body with a list-mode flag, a dash item line turns list mode
on, a blank line in list mode turns it off silently, a blank line outside
list mode is comment, and a non-blank non-dash line is comment exactly
when list mode is off (in list mode it is discarded and list mode stays
on). -/
def commentLinesSpec : Bool → List (List Char) → List (List Char)
  | _, [] => []
  | inList, l :: ls =>
    if (dashItemOf l).isSome then commentLinesSpec true ls
    else if isBlankCL l then
      if inList then commentLinesSpec false ls
      else l :: commentLinesSpec false ls
    else
      if inList then commentLinesSpec true ls
      else l :: commentLinesSpec false ls

/-- The attached items of a mention body: the non-empty stripped texts of
its dash item lines, in order. -/
def dashItemsSpec (body : List (List Char)) : List String :=
  body.filterMap fun l =>
    match dashItemOf l with
    | some i => if i = "" then none else some i
    | none => none

/-- The fragment anchor as claim C7 words it: every space and every
underscore of the topic name replaced by the dash separator. -/
def anchorSpec (t : String) : String :=
  String.mk (t.toList.map (fun c => if c = ' ' ∨ c = '_' then '-' else c))

/-! Basic lemmas about the dictionary and set models. -/

theorem dictGet_dictInsert {β : Type} (d : List (String × β)) (k k' : String) (v : β) :
    dictGet (dictInsert d k v) k' = if k' = k then some v else dictGet d k' := by
  induction d with
  | nil => simp [dictGet, dictInsert]
  | cons p t ih =>
    obtain ⟨a, b⟩ := p
    by_cases hak : a = k
    · subst hak
      by_cases h1 : k' = a <;> simp [dictInsert, dictGet, h1]
    · by_cases h2 : k' = a
      · subst h2
        simp [dictInsert, dictGet, hak]
      · simp [dictInsert, dictGet, hak, h2, ih]

theorem mem_setInsert (l : List String) (x y : String) :
    x ∈ setInsert l y ↔ x ∈ l ∨ x = y := by
  unfold setInsert
  by_cases h : y ∈ l
  · simp only [if_pos h]
    constructor
    · exact Or.inl
    · rintro (hx | rfl)
      · exact hx
      · exact h
  · simp [if_neg h]

theorem nodup_setInsert (l : List String) (y : String) (h : l.Nodup) :
    (setInsert l y).Nodup := by
  unfold setInsert
  by_cases hy : y ∈ l
  · simpa [hy]
  · rw [if_neg hy, List.nodup_append]
    refine ⟨h, List.nodup_singleton y, ?_⟩
    intro a ha hay
    rw [List.mem_singleton] at hay
    subst hay
    exact hy ha

theorem setInsert_ne_nil (l : List String) (y : String) : setInsert l y ≠ [] := by
  unfold setInsert
  by_cases hy : y ∈ l
  · simp only [if_pos hy]
    rintro rfl
    exact absurd hy (List.not_mem_nil y)
  · simp [hy]

theorem mem_foldl_setInsert (l acc : List String) (x : String) :
    x ∈ l.foldl setInsert acc ↔ x ∈ acc ∨ x ∈ l := by
  induction l generalizing acc with
  | nil => simp
  | cons a t ih =>
    simp only [List.foldl_cons, ih, mem_setInsert, List.mem_cons]
    tauto

theorem nodup_foldl_setInsert (l acc : List String) (h : acc.Nodup) :
    (l.foldl setInsert acc).Nodup := by
  induction l generalizing acc with
  | nil => simpa
  | cons a t ih => exact ih _ (nodup_setInsert _ _ h)

theorem mem_unionAll (sa : List (String × List String)) (x : String) :
    x ∈ unionAll sa ↔ saMem sa x := by
  have key : ∀ (s : List (String × List String)) (acc : List String),
      x ∈ s.foldl (fun acc p => p.2.foldl setInsert acc) acc ↔ x ∈ acc ∨ saMem s x := by
    intro s
    induction s with
    | nil => simp [saMem]
    | cons p t ih =>
      intro acc
      simp only [List.foldl_cons, ih, mem_foldl_setInsert, saMem, List.mem_cons]
      constructor
      · rintro ((h | h) | ⟨q, hq, hx⟩)
        · exact Or.inl h
        · exact Or.inr ⟨p, Or.inl rfl, h⟩
        · exact Or.inr ⟨q, Or.inr hq, hx⟩
      · rintro (h | ⟨q, (rfl | hq), hx⟩)
        · exact Or.inl (Or.inl h)
        · exact Or.inl (Or.inr hx)
        · exact Or.inr ⟨q, hq, hx⟩
  simpa [unionAll, saMem] using key sa []

theorem nodup_unionAll (sa : List (String × List String)) : (unionAll sa).Nodup := by
  have key : ∀ (s : List (String × List String)) (acc : List String), acc.Nodup →
      (s.foldl (fun acc p => p.2.foldl setInsert acc) acc).Nodup := by
    intro s
    induction s with
    | nil => intro acc h; simpa
    | cons p t ih => intro acc h; exact ih _ (nodup_foldl_setInsert _ _ h)
  exact key sa [] List.nodup_nil

/-! Sorting toolkit: the computable comparison agrees with the string
linear order, so Python sorted is the insertion sort under it. -/

theorem lex_cons_cons_iff (a b : Char) (as bs : List Char) :
    List.Lex (· < ·) (b :: bs) (a :: as) ↔ b < a ∨ (b = a ∧ List.Lex (· < ·) bs as) := by
  constructor
  · intro h
    cases h with
    | rel h => exact Or.inl h
    | cons h => exact Or.inr ⟨rfl, h⟩
  · rintro (h | ⟨rfl, h⟩)
    · exact List.Lex.rel h
    · exact List.Lex.cons h

theorem leCL_iff_not_lex : ∀ as bs : List Char,
    leCL as bs = true ↔ ¬ List.Lex (· < ·) bs as
  | [], bs => by
    simp only [leCL]
    simp only [true_iff]
    exact List.Lex.not_nil_right _ bs
  | a :: as, [] => by
    simp only [leCL]
    constructor
    · intro h
      exact absurd h (by simp)
    · intro h
      exact absurd (List.Lex.nil) h
  | a :: as, b :: bs => by
    simp only [leCL]
    by_cases hab : a = b
    · subst hab
      rw [if_pos rfl, leCL_iff_not_lex as bs, lex_cons_cons_iff]
      simp [lt_irrefl]
    · rw [if_neg hab, lex_cons_cons_iff]
      have hba : ¬ (b = a) := fun h => hab h.symm
      simp only [hba, false_and, or_false, decide_eq_true_eq]
      constructor
      · intro h hc
        exact absurd (lt_trans h hc) (lt_irrefl a)
      · intro h
        rcases lt_trichotomy a b with hlt | heq | hgt
        · exact hlt
        · exact absurd heq hab
        · exact absurd hgt h

theorem strLeB_iff_le (a b : String) : strLeB a b = true ↔ a ≤ b := by
  have hbr : ∀ u v : List Char, u < v ↔ List.Lex (· < ·) u v := fun u v => Iff.rfl
  rw [String.le_iff_toList_le, le_iff_lt_or_eq]
  unfold strLeB
  rw [leCL_iff_not_lex]
  constructor
  · intro h
    rcases lt_trichotomy a.toList b.toList with hlt | heq | hgt
    · exact Or.inl hlt
    · exact Or.inr heq
    · exact absurd ((hbr _ _).mp hgt) h
  · rintro (hlt | heq) hc
    · exact absurd ((hbr _ _).mpr hc) (lt_asymm hlt)
    · rw [show a.toList = a.data from rfl] at heq
      rw [heq] at hc
      exact absurd ((hbr _ _).mpr hc) (lt_irrefl _)

instance : IsTotal String (fun a b => strLeB a b = true) :=
  ⟨fun a b => by
    rw [strLeB_iff_le, strLeB_iff_le]
    exact le_total a b⟩

instance : IsTrans String (fun a b => strLeB a b = true) :=
  ⟨fun a b c h1 h2 => by
    rw [strLeB_iff_le] at h1 h2 ⊢
    exact le_trans h1 h2⟩

instance : IsAntisymm String (fun a b => strLeB a b = true) :=
  ⟨fun a b h1 h2 => by
    rw [strLeB_iff_le] at h1 h2
    exact le_antisymm h1 h2⟩

theorem sorted_sortStr (l : List String) :
    (sortStr l).Sorted (fun a b => strLeB a b = true) :=
  List.sorted_insertionSort _ l

theorem sorted_le_of_sorted_strLeB (l : List String)
    (h : l.Sorted (fun a b => strLeB a b = true)) : l.Sorted (· ≤ ·) :=
  List.Pairwise.imp (fun hab => (strLeB_iff_le _ _).mp hab) h

theorem perm_sortStr (l : List String) : (sortStr l).Perm l :=
  List.perm_insertionSort _ l

theorem mem_sortStr (l : List String) (x : String) : x ∈ sortStr l ↔ x ∈ l :=
  (perm_sortStr l).mem_iff

theorem nodup_sortStr (l : List String) (h : l.Nodup) : (sortStr l).Nodup :=
  ((perm_sortStr l).nodup_iff).mpr h

theorem eq_of_sorted_nodup_mem_iff (l₁ l₂ : List String)
    (s₁ : l₁.Sorted (fun a b => strLeB a b = true))
    (s₂ : l₂.Sorted (fun a b => strLeB a b = true))
    (n₁ : l₁.Nodup) (n₂ : l₂.Nodup) (h : ∀ x, x ∈ l₁ ↔ x ∈ l₂) : l₁ = l₂ :=
  List.eq_of_perm_of_sorted ((List.perm_ext_iff_of_nodup n₁ n₂).mpr h) s₁ s₂

theorem sortStr_eq_of_mem_iff (l₁ l₂ : List String)
    (n₁ : l₁.Nodup) (n₂ : l₂.Nodup) (h : ∀ x, x ∈ l₁ ↔ x ∈ l₂) :
    sortStr l₁ = sortStr l₂ :=
  eq_of_sorted_nodup_mem_iff _ _ (sorted_sortStr l₁) (sorted_sortStr l₂)
    (nodup_sortStr _ n₁) (nodup_sortStr _ n₂)
    (fun x => by rw [mem_sortStr, mem_sortStr]; exact h x)

/-! Effect of the dictionary update primitives on reads. -/

theorem dictGetD_dictUpdate {β : Type} (d : List (String × β)) (k k' : String)
    (dflt : β) (f : β → β) :
    dictGetD (dictUpdate d k dflt f) k' dflt
      = if k' = k then f (dictGetD d k dflt) else dictGetD d k' dflt := by
  unfold dictUpdate dictGetD
  rw [dictGet_dictInsert]
  by_cases h : k' = k <;> simp [h]

theorem mem_getD_update (d : List (String × List String)) (k k' v x : String) :
    x ∈ dictGetD (dictUpdate d k [] (fun s => setInsert s v)) k' []
      ↔ x ∈ dictGetD d k' [] ∨ (k' = k ∧ x = v) := by
  rw [dictGetD_dictUpdate]
  by_cases h : k' = k
  · simp [h, mem_setInsert]
  · simp [h]

theorem saMem_cons (p : String × List String) (sa : List (String × List String))
    (x : String) : saMem (p :: sa) x ↔ x ∈ p.2 ∨ saMem sa x := by
  unfold saMem
  constructor
  · rintro ⟨q, hq, hx⟩
    rcases List.mem_cons.mp hq with rfl | hq'
    · exact Or.inl hx
    · exact Or.inr ⟨q, hq', hx⟩
  · rintro (hx | ⟨q, hq, hx⟩)
    · exact ⟨p, List.mem_cons_self p sa, hx⟩
    · exact ⟨q, List.mem_cons_of_mem p hq, hx⟩

theorem saMem_update (sa : List (String × List String)) (s a x : String) :
    saMem (dictUpdate sa s [] (fun l => setInsert l a)) x ↔ saMem sa x ∨ x = a := by
  induction sa with
  | nil =>
    simp [dictUpdate, dictGetD, dictGet, dictInsert, saMem, mem_setInsert]
  | cons p t ih =>
    obtain ⟨b, ls⟩ := p
    by_cases hsb : s = b
    · subst hsb
      have h1 : dictUpdate ((s, ls) :: t) s [] (fun l => setInsert l a)
          = (s, setInsert ls a) :: t := by
        simp [dictUpdate, dictGetD, dictGet, dictInsert]
      rw [h1, saMem_cons, saMem_cons, mem_setInsert]
      tauto
    · have hbs : ¬ (b = s) := fun h => hsb h.symm
      have h1 : dictUpdate ((b, ls) :: t) s [] (fun l => setInsert l a)
          = (b, ls) :: dictUpdate t s [] (fun l => setInsert l a) := by
        simp [dictUpdate, dictGetD, dictGet, dictInsert, hsb, hbs]
      rw [h1, saMem_cons, saMem_cons, ih]
      tauto

/-! Effect of one foldAttached step and of the fold over one mention's
attached-name list, on every component of the aggregation state. -/

theorem foldAttached_stockToPath (stock t a : String) (st : AggState) :
    (foldAttached stock t st a).stockToPath = st.stockToPath := by
  unfold foldAttached
  by_cases h : a = "" <;> simp [h]

theorem foldAttached_stocks (stock t t' a : String) (st : AggState) :
    (mtAcc (foldAttached stock t st a) t').stocks = (mtAcc st t').stocks := by
  unfold foldAttached mtAcc
  by_cases h : a = ""
  · simp [h]
  · by_cases ht : t' = t <;> simp [h, ht, dictGetD_dictUpdate]

theorem foldAttached_comment (stock t t' a : String) (st : AggState) :
    (mtAcc (foldAttached stock t st a) t').comment = (mtAcc st t').comment := by
  unfold foldAttached mtAcc
  by_cases h : a = ""
  · simp [h]
  · by_cases ht : t' = t <;> simp [h, ht, dictGetD_dictUpdate]

theorem foldAttached_saMem (stock t t' a x : String) (st : AggState) :
    saMem (mtAcc (foldAttached stock t st a) t').stockAttached x
      ↔ saMem (mtAcc st t').stockAttached x ∨ (a ≠ "" ∧ t' = t ∧ x = a) := by
  unfold foldAttached mtAcc
  by_cases h : a = ""
  · simp [h]
  · by_cases ht : t' = t
    · simp [h, ht, dictGetD_dictUpdate, saMem_update]
    · simp [h, ht, dictGetD_dictUpdate]

theorem foldAttached_atm (stock t a a' x : String) (st : AggState) :
    x ∈ dictGetD (foldAttached stock t st a).attachedToMain a' []
      ↔ x ∈ dictGetD st.attachedToMain a' [] ∨ (a ≠ "" ∧ a' = a ∧ x = t) := by
  unfold foldAttached
  by_cases h : a = ""
  · simp [h]
  · simp only [h, if_pos (by simp [h] : a ≠ "")]
    rw [mem_getD_update]
    tauto

theorem foldAttached_ats (stock t a a' x : String) (st : AggState) :
    x ∈ dictGetD (foldAttached stock t st a).attachedToStocks a' []
      ↔ x ∈ dictGetD st.attachedToStocks a' [] ∨ (a ≠ "" ∧ a' = a ∧ x = stock) := by
  unfold foldAttached
  by_cases h : a = ""
  · simp [h]
  · simp only [h, if_pos (by simp [h] : a ≠ "")]
    rw [mem_getD_update]
    tauto

theorem foldAttacheds_stockToPath (as : List String) (stock t : String) (st : AggState) :
    (as.foldl (foldAttached stock t) st).stockToPath = st.stockToPath := by
  induction as generalizing st with
  | nil => rfl
  | cons a rest ih => rw [List.foldl_cons, ih, foldAttached_stockToPath]

theorem foldAttacheds_stocks (as : List String) (stock t t' : String) (st : AggState) :
    (mtAcc (as.foldl (foldAttached stock t) st) t').stocks = (mtAcc st t').stocks := by
  induction as generalizing st with
  | nil => rfl
  | cons a rest ih => rw [List.foldl_cons, ih, foldAttached_stocks]

theorem foldAttacheds_comment (as : List String) (stock t t' : String) (st : AggState) :
    (mtAcc (as.foldl (foldAttached stock t) st) t').comment = (mtAcc st t').comment := by
  induction as generalizing st with
  | nil => rfl
  | cons a rest ih => rw [List.foldl_cons, ih, foldAttached_comment]

theorem foldAttacheds_saMem (as : List String) (stock t t' x : String) (st : AggState) :
    saMem (mtAcc (as.foldl (foldAttached stock t) st) t').stockAttached x
      ↔ saMem (mtAcc st t').stockAttached x ∨ (t' = t ∧ x ∈ as ∧ x ≠ "") := by
  induction as generalizing st with
  | nil => simp
  | cons a rest ih =>
    rw [List.foldl_cons, ih, foldAttached_saMem]
    constructor
    · rintro ((h | ⟨ha, rfl, rfl⟩) | ⟨rfl, hx, hne⟩)
      · exact Or.inl h
      · exact Or.inr ⟨rfl, List.mem_cons_self _ _, ha⟩
      · exact Or.inr ⟨rfl, List.mem_cons_of_mem _ hx, hne⟩
    · rintro (h | ⟨rfl, hx, hne⟩)
      · exact Or.inl (Or.inl h)
      · rcases List.mem_cons.mp hx with rfl | hx'
        · exact Or.inl (Or.inr ⟨hne, rfl, rfl⟩)
        · exact Or.inr ⟨rfl, hx', hne⟩

theorem foldAttacheds_atm (as : List String) (stock t a' x : String) (st : AggState) :
    x ∈ dictGetD (as.foldl (foldAttached stock t) st).attachedToMain a' []
      ↔ x ∈ dictGetD st.attachedToMain a' [] ∨ (a' ∈ as ∧ a' ≠ "" ∧ x = t) := by
  induction as generalizing st with
  | nil => simp
  | cons a rest ih =>
    rw [List.foldl_cons, ih, foldAttached_atm]
    constructor
    · rintro ((h | ⟨hne, rfl, rfl⟩) | ⟨ha, hne, rfl⟩)
      · exact Or.inl h
      · exact Or.inr ⟨List.mem_cons_self _ _, hne, rfl⟩
      · exact Or.inr ⟨List.mem_cons_of_mem _ ha, hne, rfl⟩
    · rintro (h | ⟨ha, hne, rfl⟩)
      · exact Or.inl (Or.inl h)
      · rcases List.mem_cons.mp ha with rfl | ha'
        · exact Or.inl (Or.inr ⟨hne, rfl, rfl⟩)
        · exact Or.inr ⟨ha', hne, rfl⟩

theorem foldAttacheds_ats (as : List String) (stock t a' x : String) (st : AggState) :
    x ∈ dictGetD (as.foldl (foldAttached stock t) st).attachedToStocks a' []
      ↔ x ∈ dictGetD st.attachedToStocks a' [] ∨ (a' ∈ as ∧ a' ≠ "" ∧ x = stock) := by
  induction as generalizing st with
  | nil => simp
  | cons a rest ih =>
    rw [List.foldl_cons, ih, foldAttached_ats]
    constructor
    · rintro ((h | ⟨hne, rfl, rfl⟩) | ⟨ha, hne, rfl⟩)
      · exact Or.inl h
      · exact Or.inr ⟨List.mem_cons_self _ _, hne, rfl⟩
      · exact Or.inr ⟨List.mem_cons_of_mem _ ha, hne, rfl⟩
    · rintro (h | ⟨ha, hne, rfl⟩)
      · exact Or.inl (Or.inl h)
      · rcases List.mem_cons.mp ha with rfl | ha'
        · exact Or.inl (Or.inr ⟨hne, rfl, rfl⟩)
        · exact Or.inr ⟨ha', hne, rfl⟩

/-! Effect of folding one (main topic, mention) pair. -/

theorem foldMention_stockToPath (stock : String) (p : String × Mention) (st : AggState) :
    (foldMention stock st p).stockToPath = st.stockToPath := by
  unfold foldMention
  rw [foldAttacheds_stockToPath]

theorem foldMention_stocks (stock t' : String) (p : String × Mention) (st : AggState) :
    (mtAcc (foldMention stock st p) t').stocks
      = if t' = p.1 then setInsert (mtAcc st t').stocks stock else (mtAcc st t').stocks := by
  unfold foldMention
  rw [foldAttacheds_stocks]
  unfold mtAcc
  by_cases ht : t' = p.1 <;> simp [ht, dictGetD_dictUpdate]

theorem foldMention_comment (stock t' : String) (p : String × Mention) (st : AggState) :
    (mtAcc (foldMention stock st p) t').comment
      = if t' = p.1 then mergeComment (mtAcc st t').comment p.2.comment
        else (mtAcc st t').comment := by
  unfold foldMention
  rw [foldAttacheds_comment]
  unfold mtAcc
  by_cases ht : t' = p.1 <;> simp [ht, dictGetD_dictUpdate]

theorem foldMention_saMem (stock t' x : String) (p : String × Mention) (st : AggState) :
    saMem (mtAcc (foldMention stock st p) t').stockAttached x
      ↔ saMem (mtAcc st t').stockAttached x
        ∨ (t' = p.1 ∧ x ∈ p.2.attached ∧ x ≠ "") := by
  unfold foldMention
  rw [foldAttacheds_saMem]
  have hmid : ∀ st1 : AggState, (mtAcc ({ st1 with
      mainTopics := dictUpdate st1.mainTopics p.1 defaultMT fun mt =>
        { mt with stocks := setInsert mt.stocks stock,
                  comment := mergeComment mt.comment p.2.comment } }) t').stockAttached
      = (mtAcc st1 t').stockAttached := by
    intro st1
    unfold mtAcc
    by_cases ht : t' = p.1 <;> simp [ht, dictGetD_dictUpdate]
  rw [hmid]

theorem foldMention_atm (stock a' x : String) (p : String × Mention) (st : AggState) :
    x ∈ dictGetD (foldMention stock st p).attachedToMain a' []
      ↔ x ∈ dictGetD st.attachedToMain a' []
        ∨ (a' ∈ p.2.attached ∧ a' ≠ "" ∧ x = p.1) := by
  unfold foldMention
  rw [foldAttacheds_atm]

theorem foldMention_ats (stock a' x : String) (p : String × Mention) (st : AggState) :
    x ∈ dictGetD (foldMention stock st p).attachedToStocks a' []
      ↔ x ∈ dictGetD st.attachedToStocks a' []
        ∨ (a' ∈ p.2.attached ∧ a' ≠ "" ∧ x = stock) := by
  unfold foldMention
  rw [foldAttacheds_ats]

/-! Effect of folding all mentions of one document. -/

theorem foldMentions_stockToPath (tps : List (String × Mention)) (stock : String)
    (st : AggState) :
    (tps.foldl (foldMention stock) st).stockToPath = st.stockToPath := by
  induction tps generalizing st with
  | nil => rfl
  | cons p rest ih => rw [List.foldl_cons, ih, foldMention_stockToPath]

theorem foldMentions_stocks (tps : List (String × Mention)) (stock t' x : String)
    (st : AggState) :
    x ∈ (mtAcc (tps.foldl (foldMention stock) st) t').stocks
      ↔ x ∈ (mtAcc st t').stocks ∨ (x = stock ∧ ∃ p ∈ tps, p.1 = t') := by
  induction tps generalizing st with
  | nil => simp
  | cons p rest ih =>
    rw [List.foldl_cons, ih, foldMention_stocks]
    by_cases ht : t' = p.1
    · rw [if_pos ht, mem_setInsert]
      constructor
      · rintro ((h | rfl) | ⟨rfl, q, hq, rfl⟩)
        · exact Or.inl h
        · exact Or.inr ⟨rfl, p, List.mem_cons_self _ _, ht.symm⟩
        · exact Or.inr ⟨rfl, q, List.mem_cons_of_mem _ hq, rfl⟩
      · rintro (h | ⟨rfl, q, hq, rfl⟩)
        · exact Or.inl (Or.inl h)
        · rcases List.mem_cons.mp hq with rfl | hq'
          · exact Or.inl (Or.inr rfl)
          · exact Or.inr ⟨rfl, q, hq', rfl⟩
    · rw [if_neg ht]
      constructor
      · rintro (h | ⟨rfl, q, hq, rfl⟩)
        · exact Or.inl h
        · exact Or.inr ⟨rfl, q, List.mem_cons_of_mem _ hq, rfl⟩
      · rintro (h | ⟨rfl, q, hq, rfl⟩)
        · exact Or.inl h
        · rcases List.mem_cons.mp hq with rfl | hq'
          · exact absurd rfl ht
          · exact Or.inr ⟨rfl, q, hq', rfl⟩

theorem commentsOfDoc_cons (t : String) (p : String × Mention)
    (tps : List (String × Mention)) :
    commentsOfDoc t (p :: tps)
      = if p.1 = t then p.2.comment :: commentsOfDoc t tps else commentsOfDoc t tps := by
  unfold commentsOfDoc
  by_cases h : p.1 = t <;> simp [List.filter_cons, h]

theorem foldMentions_comment (tps : List (String × Mention)) (stock t' : String)
    (st : AggState) :
    (mtAcc (tps.foldl (foldMention stock) st) t').comment
      = List.foldl mergeComment (mtAcc st t').comment (commentsOfDoc t' tps) := by
  induction tps generalizing st with
  | nil => rfl
  | cons p rest ih =>
    rw [List.foldl_cons, ih, foldMention_comment, commentsOfDoc_cons]
    by_cases h : p.1 = t'
    · rw [if_pos h, if_pos h.symm, List.foldl_cons]
    · rw [if_neg h, if_neg (fun hh => h hh.symm)]

theorem foldMentions_saMem (tps : List (String × Mention)) (stock t' x : String)
    (st : AggState) :
    saMem (mtAcc (tps.foldl (foldMention stock) st) t').stockAttached x
      ↔ saMem (mtAcc st t').stockAttached x
        ∨ (∃ p ∈ tps, p.1 = t' ∧ x ∈ p.2.attached ∧ x ≠ "") := by
  induction tps generalizing st with
  | nil => simp
  | cons p rest ih =>
    rw [List.foldl_cons, ih, foldMention_saMem]
    constructor
    · rintro ((h | ⟨rfl, hx, hne⟩) | ⟨q, hq, rfl, hx, hne⟩)
      · exact Or.inl h
      · exact Or.inr ⟨p, List.mem_cons_self _ _, rfl, hx, hne⟩
      · exact Or.inr ⟨q, List.mem_cons_of_mem _ hq, rfl, hx, hne⟩
    · rintro (h | ⟨q, hq, rfl, hx, hne⟩)
      · exact Or.inl (Or.inl h)
      · rcases List.mem_cons.mp hq with rfl | hq'
        · exact Or.inl (Or.inr ⟨rfl, hx, hne⟩)
        · exact Or.inr ⟨q, hq', rfl, hx, hne⟩

theorem foldMentions_atm (tps : List (String × Mention)) (stock a' x : String)
    (st : AggState) :
    x ∈ dictGetD (tps.foldl (foldMention stock) st).attachedToMain a' []
      ↔ x ∈ dictGetD st.attachedToMain a' []
        ∨ (∃ p ∈ tps, p.1 = x ∧ a' ∈ p.2.attached ∧ a' ≠ "") := by
  induction tps generalizing st with
  | nil => simp
  | cons p rest ih =>
    rw [List.foldl_cons, ih, foldMention_atm]
    constructor
    · rintro ((h | ⟨ha, hne, rfl⟩) | ⟨q, hq, rfl, ha, hne⟩)
      · exact Or.inl h
      · exact Or.inr ⟨p, List.mem_cons_self _ _, rfl, ha, hne⟩
      · exact Or.inr ⟨q, List.mem_cons_of_mem _ hq, rfl, ha, hne⟩
    · rintro (h | ⟨q, hq, rfl, ha, hne⟩)
      · exact Or.inl (Or.inl h)
      · rcases List.mem_cons.mp hq with rfl | hq'
        · exact Or.inl (Or.inr ⟨ha, hne, rfl⟩)
        · exact Or.inr ⟨q, hq', rfl, ha, hne⟩

theorem foldMentions_ats (tps : List (String × Mention)) (stock a' x : String)
    (st : AggState) :
    x ∈ dictGetD (tps.foldl (foldMention stock) st).attachedToStocks a' []
      ↔ x ∈ dictGetD st.attachedToStocks a' []
        ∨ (x = stock ∧ ∃ p ∈ tps, a' ∈ p.2.attached ∧ a' ≠ "") := by
  induction tps generalizing st with
  | nil => simp
  | cons p rest ih =>
    rw [List.foldl_cons, ih, foldMention_ats]
    constructor
    · rintro ((h | ⟨ha, hne, rfl⟩) | ⟨rfl, q, hq, ha, hne⟩)
      · exact Or.inl h
      · exact Or.inr ⟨rfl, p, List.mem_cons_self _ _, ha, hne⟩
      · exact Or.inr ⟨rfl, q, List.mem_cons_of_mem _ hq, ha, hne⟩
    · rintro (h | ⟨rfl, q, hq, ha, hne⟩)
      · exact Or.inl (Or.inl h)
      · rcases List.mem_cons.mp hq with rfl | hq'
        · exact Or.inl (Or.inr ⟨ha, hne, rfl⟩)
        · exact Or.inr ⟨rfl, q, hq', ha, hne⟩

/-! Effect of the whole-corpus fold, by induction over the document list
with a generalized starting state. -/

theorem foldDoc_reads (st : AggState) (d : PDoc) :
    mtAcc { st with stockToPath := dictInsert st.stockToPath d.name d.path }
      = mtAcc st
    ∧ ({ st with stockToPath := dictInsert st.stockToPath d.name d.path }
        : AggState).attachedToMain = st.attachedToMain
    ∧ ({ st with stockToPath := dictInsert st.stockToPath d.name d.path }
        : AggState).attachedToStocks = st.attachedToStocks :=
  ⟨rfl, rfl, rfl⟩

theorem foldState_stocks (docs : List PDoc) (t x : String) (st : AggState) :
    x ∈ (mtAcc (docs.foldl foldDoc st) t).stocks
      ↔ x ∈ (mtAcc st t).stocks ∨ MentionsTopic docs t x := by
  induction docs generalizing st with
  | nil => simp [MentionsTopic]
  | cons d rest ih =>
    rw [List.foldl_cons, ih]
    unfold foldDoc
    rw [foldMentions_stocks]
    unfold MentionsTopic
    constructor
    · rintro ((h | ⟨rfl, q, hq, rfl⟩) | ⟨e, he, rfl, q, hq, rfl⟩)
      · exact Or.inl h
      · exact Or.inr ⟨d, List.mem_cons_self _ _, rfl, q, hq, rfl⟩
      · exact Or.inr ⟨e, List.mem_cons_of_mem _ he, rfl, q, hq, rfl⟩
    · rintro (h | ⟨e, he, rfl, q, hq, rfl⟩)
      · exact Or.inl (Or.inl h)
      · rcases List.mem_cons.mp he with rfl | he'
        · exact Or.inl (Or.inr ⟨rfl, q, hq, rfl⟩)
        · exact Or.inr ⟨e, he', rfl, q, hq, rfl⟩

theorem commentsOf_cons (d : PDoc) (rest : List PDoc) (t : String) :
    commentsOf (d :: rest) t = commentsOfDoc t d.topics ++ commentsOf rest t := by
  unfold commentsOf
  simp

theorem foldState_comment (docs : List PDoc) (t : String) (st : AggState) :
    (mtAcc (docs.foldl foldDoc st) t).comment
      = List.foldl mergeComment (mtAcc st t).comment (commentsOf docs t) := by
  induction docs generalizing st with
  | nil => rfl
  | cons d rest ih =>
    rw [List.foldl_cons, ih, commentsOf_cons, List.foldl_append]
    unfold foldDoc
    rw [foldMentions_comment]
    rfl

theorem foldState_saMem (docs : List PDoc) (t x : String) (st : AggState) :
    saMem (mtAcc (docs.foldl foldDoc st) t).stockAttached x
      ↔ saMem (mtAcc st t).stockAttached x ∨ HasAttached docs t x := by
  induction docs generalizing st with
  | nil => simp [HasAttached]
  | cons d rest ih =>
    rw [List.foldl_cons, ih]
    unfold foldDoc
    rw [foldMentions_saMem]
    unfold HasAttached
    constructor
    · rintro ((h | ⟨q, hq, rfl, hx, hne⟩) | ⟨e, he, q, hq, rfl, hx, hne⟩)
      · exact Or.inl h
      · exact Or.inr ⟨d, List.mem_cons_self _ _, q, hq, rfl, hx, hne⟩
      · exact Or.inr ⟨e, List.mem_cons_of_mem _ he, q, hq, rfl, hx, hne⟩
    · rintro (h | ⟨e, he, q, hq, rfl, hx, hne⟩)
      · exact Or.inl (Or.inl h)
      · rcases List.mem_cons.mp he with rfl | he'
        · exact Or.inl (Or.inr ⟨q, hq, rfl, hx, hne⟩)
        · exact Or.inr ⟨e, he', q, hq, rfl, hx, hne⟩

theorem foldState_atm (docs : List PDoc) (a x : String) (st : AggState) :
    x ∈ dictGetD (docs.foldl foldDoc st).attachedToMain a []
      ↔ x ∈ dictGetD st.attachedToMain a [] ∨ HasAttached docs x a := by
  induction docs generalizing st with
  | nil => simp [HasAttached]
  | cons d rest ih =>
    rw [List.foldl_cons, ih]
    unfold foldDoc
    rw [foldMentions_atm]
    unfold HasAttached
    constructor
    · rintro ((h | ⟨q, hq, rfl, ha, hne⟩) | ⟨e, he, q, hq, rfl, ha, hne⟩)
      · exact Or.inl h
      · exact Or.inr ⟨d, List.mem_cons_self _ _, q, hq, rfl, ha, hne⟩
      · exact Or.inr ⟨e, List.mem_cons_of_mem _ he, q, hq, rfl, ha, hne⟩
    · rintro (h | ⟨e, he, q, hq, rfl, ha, hne⟩)
      · exact Or.inl (Or.inl h)
      · rcases List.mem_cons.mp he with rfl | he'
        · exact Or.inl (Or.inr ⟨q, hq, rfl, ha, hne⟩)
        · exact Or.inr ⟨e, he', q, hq, rfl, ha, hne⟩

theorem foldState_ats (docs : List PDoc) (a x : String) (st : AggState) :
    x ∈ dictGetD (docs.foldl foldDoc st).attachedToStocks a []
      ↔ x ∈ dictGetD st.attachedToStocks a [] ∨ StockHasAttached docs a x := by
  induction docs generalizing st with
  | nil => simp [StockHasAttached]
  | cons d rest ih =>
    rw [List.foldl_cons, ih]
    unfold foldDoc
    rw [foldMentions_ats]
    unfold StockHasAttached
    constructor
    · rintro ((h | ⟨rfl, q, hq, ha, hne⟩) | ⟨e, he, rfl, q, hq, ha, hne⟩)
      · exact Or.inl h
      · exact Or.inr ⟨d, List.mem_cons_self _ _, rfl, q, hq, ha, hne⟩
      · exact Or.inr ⟨e, List.mem_cons_of_mem _ he, rfl, q, hq, ha, hne⟩
    · rintro (h | ⟨e, he, rfl, q, hq, ha, hne⟩)
      · exact Or.inl (Or.inl h)
      · rcases List.mem_cons.mp he with rfl | he'
        · exact Or.inl (Or.inr ⟨rfl, q, hq, ha, hne⟩)
        · exact Or.inr ⟨e, he', rfl, q, hq, ha, hne⟩

theorem foldState_stp (docs : List PDoc) (s : String) (st : AggState) :
    dictGet (docs.foldl foldDoc st).stockToPath s
      = match docs.reverse.find? (fun d => d.name == s) with
        | some d => some d.path
        | none => dictGet st.stockToPath s := by
  induction docs generalizing st with
  | nil => rfl
  | cons d rest ih =>
    rw [List.foldl_cons, ih]
    unfold foldDoc
    rw [foldMentions_stockToPath, List.reverse_cons, List.find?_append]
    rcases hfind : rest.reverse.find? (fun d => d.name == s) with _ | e
    · rw [hfind]
      by_cases hd : d.name = s
      · simp [List.find?, Option.or, dictGet_dictInsert, hd]
      · have hne' : ¬ (s = d.name) := fun h => hd h.symm
        have hb : (d.name == s) = false := beq_eq_false_iff_ne.mpr hd
        simp [List.find?, Option.or, dictGet_dictInsert, hb, hne']
    · rw [hfind]
      simp [Option.or]

/-! The stock sets accumulated by the fold never contain duplicates. -/

theorem nodup_stocks_foldMentions (tps : List (String × Mention)) (stock : String)
    (st : AggState) (h : ∀ t', (mtAcc st t').stocks.Nodup) :
    ∀ t', (mtAcc (tps.foldl (foldMention stock) st) t').stocks.Nodup := by
  induction tps generalizing st with
  | nil => exact h
  | cons p rest ih =>
    rw [List.foldl_cons]
    refine ih _ ?_
    intro t'
    rw [foldMention_stocks]
    by_cases ht : t' = p.1
    · rw [if_pos ht]
      exact nodup_setInsert _ _ (h t')
    · rw [if_neg ht]
      exact h t'

theorem nodup_stocks_foldState (docs : List PDoc) (st : AggState)
    (h : ∀ t', (mtAcc st t').stocks.Nodup) :
    ∀ t', (mtAcc (docs.foldl foldDoc st) t').stocks.Nodup := by
  induction docs generalizing st with
  | nil => exact h
  | cons d rest ih =>
    rw [List.foldl_cons]
    exact ih _ (nodup_stocks_foldMentions _ _ _ h)

theorem mtAcc_emptyAgg (t : String) : mtAcc emptyAgg t = defaultMT := rfl

theorem nodup_stocks_acc (docs : List PDoc) (t : String) :
    (mtAcc (foldState docs) t).stocks.Nodup := by
  refine nodup_stocks_foldState docs emptyAgg (fun t' => ?_) t
  rw [mtAcc_emptyAgg]
  exact List.nodup_nil

/-! Bridging the aggregator's output to the intermediate fold state. -/

theorem dictGet_map_finalize (l : List (String × MTAcc)) (t : String) :
    dictGet (l.map (fun p => (p.1, finalizeMT p.2))) t = (dictGet l t).map finalizeMT := by
  induction l with
  | nil => rfl
  | cons p rest ih =>
    obtain ⟨a, mt⟩ := p
    by_cases h : t = a <;> simp [dictGet, h, ih]

theorem getMT_collect (docs : List PDoc) (t : String) :
    getMT (collectAllTopics docs) t = finalizeMT (mtAcc (foldState docs) t) := by
  unfold getMT collectAllTopics mtAcc foldState
  unfold dictGetD
  simp only
  rw [dictGet_map_finalize]
  cases h : dictGet (List.foldl foldDoc emptyAgg docs).mainTopics t
  · simp only [h, Option.map_none', Option.getD_none]
    rfl
  · simp only [h, Option.map_some', Option.getD_some]

theorem atm_collect (docs : List PDoc) :
    (collectAllTopics docs).attachedToMain = (foldState docs).attachedToMain := rfl

theorem ats_collect (docs : List PDoc) :
    (collectAllTopics docs).attachedToStocks = (foldState docs).attachedToStocks := rfl

theorem stp_collect (docs : List PDoc) :
    (collectAllTopics docs).stockToPath = (foldState docs).stockToPath := rfl

theorem mem_stocks_collect (docs : List PDoc) (t x : String) :
    x ∈ (getMT (collectAllTopics docs) t).stocks ↔ MentionsTopic docs t x := by
  rw [getMT_collect]
  unfold finalizeMT
  simp only [mem_sortStr]
  have := foldState_stocks docs t x emptyAgg
  unfold foldState
  rw [this, mtAcc_emptyAgg]
  simp [defaultMT]

theorem mem_attached_finalizeMT (mt : MTAcc) (x : String) :
    x ∈ (finalizeMT mt).attached ↔ saMem mt.stockAttached x := by
  unfold finalizeMT
  by_cases h : mt.stockAttached.isEmpty
  · have he : mt.stockAttached = [] := List.isEmpty_iff.mp h
    simp [h, he, saMem]
  · simp [h, mem_sortStr, mem_unionAll]

theorem mem_attached_collect (docs : List PDoc) (t x : String) :
    x ∈ (getMT (collectAllTopics docs) t).attached ↔ HasAttached docs t x := by
  rw [getMT_collect, mem_attached_finalizeMT]
  have := foldState_saMem docs t x emptyAgg
  unfold foldState
  rw [this, mtAcc_emptyAgg]
  simp [defaultMT, saMem]

theorem mem_atm_collect (docs : List PDoc) (a x : String) :
    x ∈ getATM (collectAllTopics docs) a ↔ HasAttached docs x a := by
  unfold getATM
  rw [atm_collect]
  have := foldState_atm docs a x emptyAgg
  unfold foldState
  rw [this]
  simp [emptyAgg, dictGetD, dictGet]

theorem mem_ats_collect (docs : List PDoc) (a x : String) :
    x ∈ getATS (collectAllTopics docs) a ↔ StockHasAttached docs a x := by
  unfold getATS
  rw [ats_collect]
  have := foldState_ats docs a x emptyAgg
  unfold foldState
  rw [this]
  simp [emptyAgg, dictGetD, dictGet]

theorem stp_lookup_collect (docs : List PDoc) (s : String) :
    dictGet (collectAllTopics docs).stockToPath s
      = match docs.reverse.find? (fun d => d.name == s) with
        | some d => some d.path
        | none => none := by
  rw [stp_collect]
  unfold foldState
  rw [foldState_stp]
  rfl

theorem comment_collect (docs : List PDoc) (t : String) :
    (getMT (collectAllTopics docs) t).comment
      = List.foldl mergeComment "" (commentsOf docs t) := by
  rw [getMT_collect]
  show (mtAcc (foldState docs) t).comment = _
  unfold foldState
  rw [foldState_comment, mtAcc_emptyAgg]
  rfl

theorem sorted_stocks_collect (docs : List PDoc) (t : String) :
    ((getMT (collectAllTopics docs) t).stocks).Sorted (fun a b => strLeB a b = true) := by
  rw [getMT_collect]
  exact sorted_sortStr _

theorem sorted_attached_collect (docs : List PDoc) (t : String) :
    ((getMT (collectAllTopics docs) t).attached).Sorted (fun a b => strLeB a b = true) := by
  rw [getMT_collect]
  unfold finalizeMT
  by_cases h : (mtAcc (foldState docs) t).stockAttached.isEmpty
  · simp [h]
  · simpa [h] using sorted_sortStr (unionAll (mtAcc (foldState docs) t).stockAttached)

theorem nodup_stocks_collect (docs : List PDoc) (t : String) :
    ((getMT (collectAllTopics docs) t).stocks).Nodup := by
  rw [getMT_collect]
  exact nodup_sortStr _ (nodup_stocks_acc docs t)

theorem nodup_attached_collect (docs : List PDoc) (t : String) :
    ((getMT (collectAllTopics docs) t).attached).Nodup := by
  rw [getMT_collect]
  unfold finalizeMT
  by_cases h : (mtAcc (foldState docs) t).stockAttached.isEmpty
  · simp [h]
  · simpa [h] using nodup_sortStr _ (nodup_unionAll _)

/-! Lemmas about the per-section line classification machine. -/

theorem stepLine_no_cur (st : TState) (l : List Char)
    (hc : st.cur = "") (hl : topicHeadOf l = none) : stepLine st l = st := by
  unfold stepLine
  rw [hl]
  simp [hc]

theorem foldl_stepLine_no_cur (ls : List (List Char)) (st : TState)
    (hc : st.cur = "") (h : ∀ l ∈ ls, topicHeadOf l = none) :
    ls.foldl stepLine st = st := by
  induction ls with
  | nil => rfl
  | cons l rest ih =>
    rw [List.foldl_cons, stepLine_no_cur st l hc (h l (List.mem_cons_self _ _))]
    exact ih fun l' hl' => h l' (List.mem_cons_of_mem _ hl')

theorem dashItemsSpec_cons (l : List Char) (ls : List (List Char)) :
    dashItemsSpec (l :: ls)
      = (match dashItemOf l with
         | some i => if i = "" then [] else [i]
         | none => []) ++ dashItemsSpec ls := by
  unfold dashItemsSpec
  rw [List.filterMap_cons]
  rcases h : dashItemOf l with _ | i
  · simp
  · by_cases hi : i = "" <;> simp [hi]

theorem stepRun (body : List (List Char)) (st : TState) (hc : st.cur ≠ "")
    (h : ∀ l ∈ body, topicHeadOf l = none) :
    (body.foldl stepLine st).cur = st.cur
    ∧ (body.foldl stepLine st).dict = st.dict
    ∧ (body.foldl stepLine st).attached = st.attached ++ dashItemsSpec body
    ∧ (body.foldl stepLine st).content = st.content ++ commentLinesSpec st.inList body := by
  induction body generalizing st with
  | nil => simp [dashItemsSpec, commentLinesSpec]
  | cons l ls ih =>
    have hl : topicHeadOf l = none := h l (List.mem_cons_self _ _)
    have hrest : ∀ l' ∈ ls, topicHeadOf l' = none :=
      fun l' hl' => h l' (List.mem_cons_of_mem _ hl')
    rw [List.foldl_cons]
    rcases hd : dashItemOf l with _ | item
    · by_cases hb : isBlankCL l
      · by_cases hil : st.inList
        · have hstep : stepLine st l = { st with inList := false } := by
            unfold stepLine
            rw [hl]
            simp [hc, hd, hb, hil]
          rw [hstep]
          obtain ⟨c1, c2, c3, c4⟩ := ih { st with inList := false } hc hrest
          refine ⟨c1, c2, by rw [c3]; simp [dashItemsSpec_cons, hd], ?_⟩
          rw [c4]
          simp [commentLinesSpec, hd, hb, hil]
        · have hstep : stepLine st l = { st with content := st.content ++ [l] } := by
            unfold stepLine
            rw [hl]
            simp [hc, hd, hb, hil]
          rw [hstep]
          obtain ⟨c1, c2, c3, c4⟩ := ih { st with content := st.content ++ [l] } hc hrest
          refine ⟨c1, c2, by rw [c3]; simp [dashItemsSpec_cons, hd], ?_⟩
          rw [c4]
          simp [commentLinesSpec, hd, hb, hil]
      · by_cases hil : st.inList
        · have hstep : stepLine st l = st := by
            unfold stepLine
            rw [hl]
            simp [hc, hd, hb, hil]
          rw [hstep]
          obtain ⟨c1, c2, c3, c4⟩ := ih st hc hrest
          refine ⟨c1, c2, by rw [c3]; simp [dashItemsSpec_cons, hd], ?_⟩
          rw [c4]
          simp [commentLinesSpec, hd, hb, hil]
        · have hstep : stepLine st l = { st with content := st.content ++ [l] } := by
            unfold stepLine
            rw [hl]
            simp [hc, hd, hb, hil]
          rw [hstep]
          obtain ⟨c1, c2, c3, c4⟩ := ih { st with content := st.content ++ [l] } hc hrest
          refine ⟨c1, c2, by rw [c3]; simp [dashItemsSpec_cons, hd], ?_⟩
          rw [c4]
          simp [commentLinesSpec, hd, hb, hil]
    · have hstep : stepLine st l
          = { st with
              attached := if item ≠ "" then st.attached ++ [item] else st.attached,
              inList := true } := by
        unfold stepLine
        rw [hl]
        simp [hc, hd]
      rw [hstep]
      obtain ⟨c1, c2, c3, c4⟩ := ih { st with
          attached := if item ≠ "" then st.attached ++ [item] else st.attached,
          inList := true } hc hrest
      refine ⟨c1, c2, ?_, ?_⟩
      · rw [c3]
        by_cases hi : item = "" <;>
          simp [dashItemsSpec_cons, hd, hi, List.append_assoc]
      · rw [c4]
        simp [commentLinesSpec, hd]

/-! Invariants behind claim C9: every main-topic entry ever created holds
at least one stock, and the two attached-topic dictionaries always carry
exactly the same keys, with non-empty set values. -/

theorem foldAttached_stocksInv (stock t a : String) (st : AggState)
    (hinv : ∀ t' mt', dictGet st.mainTopics t' = some mt' → mt'.stocks ≠ [])
    (hpres : (mtAcc st t).stocks ≠ []) :
    ∀ t' mt', dictGet (foldAttached stock t st a).mainTopics t' = some mt'
      → mt'.stocks ≠ [] := by
  intro t' mt'
  unfold foldAttached
  by_cases h : a = ""
  · simp only [h]
    simp only [if_neg (by simp : ¬ ("" : String) ≠ "")]
    exact hinv t' mt'
  · simp only [h, if_pos (by simp [h] : a ≠ "")]
    show dictGet (dictUpdate st.mainTopics t defaultMT _) t' = some mt' → _
    unfold dictUpdate
    rw [dictGet_dictInsert]
    by_cases ht : t' = t
    · rw [if_pos ht]
      intro he
      have hv := Option.some.inj he
      have hs := congrArg MTAcc.stocks hv
      rw [← hs]
      exact hpres
    · rw [if_neg ht]
      exact hinv t' mt'

theorem foldAttacheds_stocksInv (as : List String) (stock t : String) (st : AggState)
    (hinv : ∀ t' mt', dictGet st.mainTopics t' = some mt' → mt'.stocks ≠ [])
    (hpres : (mtAcc st t).stocks ≠ []) :
    ∀ t' mt', dictGet (as.foldl (foldAttached stock t) st).mainTopics t' = some mt'
      → mt'.stocks ≠ [] := by
  induction as generalizing st with
  | nil => exact hinv
  | cons a rest ih =>
    rw [List.foldl_cons]
    refine ih _ (foldAttached_stocksInv stock t a st hinv hpres) ?_
    rw [show mtAcc (foldAttached stock t st a) t
        = ⟨(mtAcc (foldAttached stock t st a) t).stocks,
           (mtAcc (foldAttached stock t st a) t).comment,
           (mtAcc (foldAttached stock t st a) t).stockAttached⟩ from rfl,
      foldAttached_stocks]
    exact hpres

theorem mtAcc_set_mainTopics (st : AggState) (X : List (String × MTAcc)) (t : String) :
    mtAcc { st with mainTopics := X } t = dictGetD X t defaultMT := rfl

theorem foldMention_stocksInv (stock : String) (p : String × Mention) (st : AggState)
    (hinv : ∀ t' mt', dictGet st.mainTopics t' = some mt' → mt'.stocks ≠ []) :
    ∀ t' mt', dictGet (foldMention stock st p).mainTopics t' = some mt'
      → mt'.stocks ≠ [] := by
  unfold foldMention
  refine foldAttacheds_stocksInv _ _ _ _ ?_ ?_
  · intro t' mt' he
    have he' : dictGet (dictUpdate st.mainTopics p.1 defaultMT (fun mt =>
        { mt with stocks := setInsert mt.stocks stock,
                  comment := mergeComment mt.comment p.2.comment })) t' = some mt' := he
    unfold dictUpdate at he'
    rw [dictGet_dictInsert] at he'
    by_cases ht : t' = p.1
    · rw [if_pos ht] at he'
      have hv := Option.some.inj he'
      have hs := congrArg MTAcc.stocks hv
      rw [← hs]
      exact setInsert_ne_nil _ _
    · rw [if_neg ht] at he'
      exact hinv t' mt' he'
  · rw [mtAcc_set_mainTopics, dictGetD_dictUpdate, if_pos rfl]
    exact setInsert_ne_nil _ _

theorem foldState_stocksInv (docs : List PDoc) (st : AggState)
    (hinv : ∀ t' mt', dictGet st.mainTopics t' = some mt' → mt'.stocks ≠ []) :
    ∀ t' mt', dictGet (docs.foldl foldDoc st).mainTopics t' = some mt'
      → mt'.stocks ≠ [] := by
  induction docs generalizing st with
  | nil => exact hinv
  | cons d rest ih =>
    rw [List.foldl_cons]
    refine ih _ ?_
    unfold foldDoc
    have key : ∀ (tps : List (String × Mention)) (st1 : AggState),
        (∀ t' mt', dictGet st1.mainTopics t' = some mt' → mt'.stocks ≠ []) →
        ∀ t' mt', dictGet (tps.foldl (foldMention d.name) st1).mainTopics t' = some mt'
          → mt'.stocks ≠ [] := by
      intro tps
      induction tps with
      | nil => intro st1 h1; exact h1
      | cons p rest2 ih2 =>
        intro st1 h1
        rw [List.foldl_cons]
        exact ih2 _ (foldMention_stocksInv d.name p st1 h1)
    exact key d.topics _ hinv

theorem foldAttached_keysInv (stock t a : String) (st : AggState)
    (hinv : ∀ a', ((dictGet st.attachedToMain a').isSome
        ↔ (dictGet st.attachedToStocks a').isSome)
      ∧ (∀ l, dictGet st.attachedToMain a' = some l → l ≠ [])
      ∧ (∀ l, dictGet st.attachedToStocks a' = some l → l ≠ [])) :
    ∀ a', ((dictGet (foldAttached stock t st a).attachedToMain a').isSome
        ↔ (dictGet (foldAttached stock t st a).attachedToStocks a').isSome)
      ∧ (∀ l, dictGet (foldAttached stock t st a).attachedToMain a' = some l → l ≠ [])
      ∧ (∀ l, dictGet (foldAttached stock t st a).attachedToStocks a' = some l → l ≠ []) := by
  intro a'
  unfold foldAttached
  by_cases h : a = ""
  · simp only [h]
    simp only [if_neg (by simp : ¬ ("" : String) ≠ "")]
    exact hinv a'
  · simp only [h, if_pos (by simp [h] : a ≠ "")]
    show ((dictGet (dictUpdate st.attachedToMain a [] _) a').isSome
        ↔ (dictGet (dictUpdate st.attachedToStocks a [] _) a').isSome) ∧ _ ∧ _
    unfold dictUpdate
    rw [dictGet_dictInsert, dictGet_dictInsert]
    by_cases ha : a' = a
    · rw [if_pos ha, if_pos ha]
      refine ⟨by simp, ?_, ?_⟩
      · intro l he
        have := Option.some.inj he
        rw [← this]
        exact setInsert_ne_nil _ _
      · intro l he
        have := Option.some.inj he
        rw [← this]
        exact setInsert_ne_nil _ _
    · rw [if_neg ha, if_neg ha]
      exact hinv a'

theorem foldMentions_keysInv (tps : List (String × Mention)) (stock : String)
    (st : AggState)
    (hinv : ∀ a', ((dictGet st.attachedToMain a').isSome
        ↔ (dictGet st.attachedToStocks a').isSome)
      ∧ (∀ l, dictGet st.attachedToMain a' = some l → l ≠ [])
      ∧ (∀ l, dictGet st.attachedToStocks a' = some l → l ≠ [])) :
    ∀ a', ((dictGet (tps.foldl (foldMention stock) st).attachedToMain a').isSome
        ↔ (dictGet (tps.foldl (foldMention stock) st).attachedToStocks a').isSome)
      ∧ (∀ l, dictGet (tps.foldl (foldMention stock) st).attachedToMain a' = some l → l ≠ [])
      ∧ (∀ l, dictGet (tps.foldl (foldMention stock) st).attachedToStocks a' = some l
          → l ≠ []) := by
  induction tps generalizing st with
  | nil => exact hinv
  | cons p rest ih =>
    rw [List.foldl_cons]
    refine ih _ ?_
    unfold foldMention
    have key : ∀ (as : List String) (st1 : AggState),
        (∀ a', ((dictGet st1.attachedToMain a').isSome
            ↔ (dictGet st1.attachedToStocks a').isSome)
          ∧ (∀ l, dictGet st1.attachedToMain a' = some l → l ≠ [])
          ∧ (∀ l, dictGet st1.attachedToStocks a' = some l → l ≠ [])) →
        ∀ a', ((dictGet (as.foldl (foldAttached stock p.1) st1).attachedToMain a').isSome
            ↔ (dictGet (as.foldl (foldAttached stock p.1) st1).attachedToStocks a').isSome)
          ∧ (∀ l, dictGet (as.foldl (foldAttached stock p.1) st1).attachedToMain a' = some l
              → l ≠ [])
          ∧ (∀ l, dictGet (as.foldl (foldAttached stock p.1) st1).attachedToStocks a' = some l
              → l ≠ []) := by
      intro as
      induction as with
      | nil => intro st1 h1; exact h1
      | cons a rest2 ih2 =>
        intro st1 h1
        rw [List.foldl_cons]
        exact ih2 _ (foldAttached_keysInv stock p.1 a st1 h1)
    exact key p.2.attached _ hinv

theorem mem_stocks_acc (docs : List PDoc) (t x : String) :
    x ∈ (mtAcc (foldState docs) t).stocks ↔ MentionsTopic docs t x := by
  unfold foldState
  rw [foldState_stocks, mtAcc_emptyAgg]
  simp [defaultMT]

theorem stocks_collect_sortStr (docs : List PDoc) (t : String) :
    (getMT (collectAllTopics docs) t).stocks
      = sortStr ((mtAcc (foldState docs) t).stocks) := by
  rw [getMT_collect]
  rfl

theorem mentionsTopic_perm (docs₁ docs₂ : List PDoc) (h : docs₁.Perm docs₂)
    (t x : String) : MentionsTopic docs₁ t x ↔ MentionsTopic docs₂ t x := by
  unfold MentionsTopic
  constructor
  · rintro ⟨d, hd, rest⟩
    exact ⟨d, h.mem_iff.mp hd, rest⟩
  · rintro ⟨d, hd, rest⟩
    exact ⟨d, h.mem_iff.mpr hd, rest⟩

theorem hasAttached_perm (docs₁ docs₂ : List PDoc) (h : docs₁.Perm docs₂)
    (t a : String) : HasAttached docs₁ t a ↔ HasAttached docs₂ t a := by
  unfold HasAttached
  constructor
  · rintro ⟨d, hd, rest⟩
    exact ⟨d, h.mem_iff.mp hd, rest⟩
  · rintro ⟨d, hd, rest⟩
    exact ⟨d, h.mem_iff.mpr hd, rest⟩

theorem stockHasAttached_perm (docs₁ docs₂ : List PDoc) (h : docs₁.Perm docs₂)
    (a x : String) : StockHasAttached docs₁ a x ↔ StockHasAttached docs₂ a x := by
  unfold StockHasAttached
  constructor
  · rintro ⟨d, hd, rest⟩
    exact ⟨d, h.mem_iff.mp hd, rest⟩
  · rintro ⟨d, hd, rest⟩
    exact ⟨d, h.mem_iff.mpr hd, rest⟩

/-! Locator lookups: a stock identifier that occurs in at most one
document resolves independently of fold order. -/

theorem findFirst_eq_head_filter {α : Type} (p : α → Bool) :
    ∀ l : List α, l.find? p = (l.filter p).head?
  | [] => rfl
  | a :: l => by
    rcases hp : p a with _ | _
    · rw [List.find?_cons_of_neg _ (by simp [hp]), List.filter_cons_of_neg (by simp [hp])]
      exact findFirst_eq_head_filter p l
    · rw [List.find?_cons_of_pos _ hp, List.filter_cons_of_pos hp]
      rfl

theorem filter_name_length_le_one (docs : List PDoc) (s : String)
    (h : (docs.map PDoc.name).Nodup) :
    (docs.filter (fun d => d.name == s)).length ≤ 1 := by
  rcases hF : docs.filter (fun d => d.name == s) with _ | ⟨d1, F1⟩
  · rw [hF]
    simp
  · rcases hF1 : F1 with _ | ⟨d2, F2⟩
    · rw [hF, hF1]
      simp
    · exfalso
      have hsub : (docs.filter (fun d => d.name == s)).Sublist docs :=
        List.filter_sublist docs
      rw [hF, hF1] at hsub
      have hnod : ((d1 :: d2 :: F2).map PDoc.name).Nodup :=
        List.Nodup.sublist (hsub.map PDoc.name) h
      have h1 : d1.name = s := by
        have : d1 ∈ docs.filter (fun d => d.name == s) := by
          rw [hF, hF1]
          exact List.mem_cons_self _ _
        simpa using (List.of_mem_filter this)
      have h2 : d2.name = s := by
        have : d2 ∈ docs.filter (fun d => d.name == s) := by
          rw [hF, hF1]
          exact List.mem_cons_of_mem _ (List.mem_cons_self _ _)
        simpa using (List.of_mem_filter this)
      rw [List.map_cons, List.map_cons, List.nodup_cons] at hnod
      exact hnod.1 (by rw [h1, h2]; exact List.mem_cons_self _ _)

theorem eq_of_perm_of_length_le_one {α : Type} (l₁ l₂ : List α)
    (h : l₁.Perm l₂) (hl : l₁.length ≤ 1) : l₁ = l₂ := by
  rcases l₁ with _ | ⟨a, t⟩
  · exact h.nil_eq
  · rcases t with _ | ⟨b, t2⟩
    · exact (List.perm_singleton.mp h.symm).symm
    · exact absurd hl (by simp [List.length_cons])

theorem stp_lookup_perm (docs₁ docs₂ : List PDoc) (h : docs₁.Perm docs₂)
    (hnod : (docs₁.map PDoc.name).Nodup) (s : String) :
    dictGet (collectAllTopics docs₁).stockToPath s
      = dictGet (collectAllTopics docs₂).stockToPath s := by
  rw [stp_lookup_collect, stp_lookup_collect]
  have hfeq : docs₁.filter (fun d => d.name == s) = docs₂.filter (fun d => d.name == s) :=
    eq_of_perm_of_length_le_one _ _ (h.filter _) (filter_name_length_le_one docs₁ s hnod)
  rw [findFirst_eq_head_filter, findFirst_eq_head_filter,
    List.filter_reverse, List.filter_reverse, hfeq]

/-! The comment-merge function of the source coincides with the amended
substring-skipping specification. -/

theorem mergeComment_eq_spec (old c : String) :
    mergeComment old c = mergeCommentSpec old c := by
  unfold mergeComment mergeCommentSpec
  by_cases hc : c = ""
  · simp [hc]
  · by_cases ho : old = ""
    · simp [hc, ho]
    · rcases hin : pyIn c old with _ | _ <;> simp [hc, ho, hin]

/-- The two sequential single-character replacements of the source equal
the single character map of the claim. -/
theorem anchorOf_eq_spec (t : String) : anchorOf t = anchorSpec t := by
  unfold anchorOf anchorSpec pyReplaceChar
  rw [show (String.mk (t.toList.map (fun c => if c = ' ' then '-' else c))).toList
      = t.toList.map (fun c => if c = ' ' then '-' else c) from rfl]
  rw [List.map_map]
  have key : ∀ cs : List Char,
      cs.map ((fun c => if c = '_' then '-' else c) ∘ (fun c => if c = ' ' then '-' else c))
        = cs.map (fun c => if c = ' ' ∨ c = '_' then '-' else c) := by
    intro cs
    induction cs with
    | nil => rfl
    | cons c cs ih =>
      rw [List.map_cons, List.map_cons, ih]
      congr 1
      show (if (if c = ' ' then '-' else c) = '_' then '-' else (if c = ' ' then '-' else c))
        = (if c = ' ' ∨ c = '_' then '-' else c)
      by_cases h1 : c = ' '
      · subst h1
        decide
      · by_cases h2 : c = '_'
        · subst h2
          decide
        · simp [h1, h2]
  rw [key]

theorem foldState_keysInv (docs : List PDoc) (st : AggState)
    (hinv : ∀ a', ((dictGet st.attachedToMain a').isSome
        ↔ (dictGet st.attachedToStocks a').isSome)
      ∧ (∀ l, dictGet st.attachedToMain a' = some l → l ≠ [])
      ∧ (∀ l, dictGet st.attachedToStocks a' = some l → l ≠ [])) :
    ∀ a', ((dictGet (docs.foldl foldDoc st).attachedToMain a').isSome
        ↔ (dictGet (docs.foldl foldDoc st).attachedToStocks a').isSome)
      ∧ (∀ l, dictGet (docs.foldl foldDoc st).attachedToMain a' = some l → l ≠ [])
      ∧ (∀ l, dictGet (docs.foldl foldDoc st).attachedToStocks a' = some l → l ≠ []) := by
  induction docs generalizing st with
  | nil => exact hinv
  | cons d rest ih =>
    rw [List.foldl_cons]
    refine ih _ ?_
    unfold foldDoc
    exact foldMentions_keysInv d.topics d.name _ hinv

/-! The claim theorems. -/

/-- Claim C1 counterexample: the claim says a subsequent non-empty
comment is appended whenever it is distinct from the already-merged
commentary, only an exact duplicate being skipped.  Folding comments
"AB" then "A" under that reading must give "AB" followed by a line break
and "A"; the code instead skips "A" because the duplicate test is a
substring test (Python in), leaving just "AB". -/
theorem C1_counterexample :
    (getMT (collectAllTopics
        [⟨"S1", [("T", ⟨"AB", []⟩)], "p1"⟩, ⟨"S2", [("T", ⟨"A", []⟩)], "p2"⟩]) "T").comment
      = "AB"
    ∧ List.foldl mergeCommentClaimed "" ["AB", "A"] = "AB\nA"
    ∧ ("AB" : String) ≠ "AB\nA" := by
  refine ⟨?_, ?_, ?_⟩ <;> decide

/-- Claim C1 as amended: for every sequence of parsed documents, the
aggregated comment of a main topic is the left fold, over all its mention
comments in fold order, of the merge rule in which the first non-empty
comment wins and a later non-empty comment is appended after a line break
unless it already occurs as a contiguous substring of the merged
commentary (so merging "A" then "" gives "A", "A" then "B" gives "A",
then a line break, then "B", and "A" then "A" gives "A"). -/
theorem C1_comment_merge (docs : List PDoc) (t : String) :
    (getMT (collectAllTopics docs) t).comment
      = List.foldl mergeCommentSpec "" (commentsOf docs t) := by
  rw [comment_collect]
  have hfun : mergeComment = mergeCommentSpec :=
    funext fun old => funext fun c => mergeComment_eq_spec old c
  rw [hfun]

/-- Claim C2 counterexample: in the body of mention T the line "note" is
not a heading, not a dash item and not blank, and it immediately follows
the attached item "- x" with no blank line between; the claim says it is
appended to the comment buffer, but the parser discards it because list
mode is still on, leaving an empty comment. -/
theorem C2_counterexample :
    parseMarkdownFile "f" "## 题材\n### T\n- x\nnote"
      = ("f", [("T", ⟨"", ["x"]⟩)])
    ∧ ("" : String) ≠ "note" := by
  refine ⟨?_, ?_⟩ <;> decide

/-- Claim C2 as amended: over a mention body free of third-level
headings, a dash item line turns list mode on, a blank line in list mode
turns it off contributing nothing, a blank line outside list mode is
appended to the comment buffer, and a non-blank non-dash line is appended
exactly when list mode is off — while list mode is on such a line is
discarded and list mode stays on.  The mention's comment is the
accumulated buffer joined by line breaks and stripped, and its attached
names are the non-empty stripped dash items in order. -/
theorem C2_line_classification (dict : List (String × Mention)) (body : List (List Char))
    (h : ∀ l ∈ body, topicHeadOf l = none) :
    processBody dict ("### T".toList :: body)
      = dictInsert dict "T"
          ⟨strCL (pyStripCL (joinNL (commentLinesSpec false body))), dashItemsSpec body⟩ := by
  unfold processBody
  rw [List.foldl_cons]
  have hhead : topicHeadOf ("### T".toList) = some "T" := by decide
  have hstep : stepLine ⟨"", [], [], false, dict⟩ ("### T".toList)
      = ⟨"T", [], [], false, dict⟩ := by
    unfold stepLine
    rw [hhead]
    rfl
  rw [hstep]
  obtain ⟨c1, c2, c3, c4⟩ :=
    stepRun body ⟨"T", [], [], false, dict⟩ (show ("T" : String) ≠ "" from by decide) h
  unfold saveCur
  rw [c1, c2, c3, c4]
  rw [if_pos (show ("T" : String) ≠ "" from by decide)]
  simp

theorem C2_line_classification_witness :
    (∀ l ∈ ["- x".toList, "note".toList], topicHeadOf l = none)
    ∧ processBody [] ("### T".toList :: ["- x".toList, "note".toList])
        = [("T", ⟨"", ["x"]⟩)] := by
  refine ⟨by decide, ?_⟩
  rw [C2_line_classification [] ["- x".toList, "note".toList] (by decide)]
  decide

/-- Claim C4: for every main topic of the aggregated output, the
finalized attachedUnion holds exactly the attached names occurring in
some mention of that topic across the corpus — the union over all
(stock, mention) pairs folded into the topic — provided, as the parser
guarantees, that every attached name of the input documents is non-empty. -/
theorem C4_attached_union (docs : List PDoc) (t a : String)
    (h : ∀ d ∈ docs, ∀ p ∈ d.topics, ∀ x ∈ p.2.attached, x ≠ "") :
    a ∈ (getMT (collectAllTopics docs) t).attached
      ↔ ∃ d ∈ docs, ∃ p ∈ d.topics, p.1 = t ∧ a ∈ p.2.attached := by
  rw [mem_attached_collect]
  unfold HasAttached
  constructor
  · rintro ⟨d, hd, p, hp, ht, ha, _⟩
    exact ⟨d, hd, p, hp, ht, ha⟩
  · rintro ⟨d, hd, p, hp, ht, ha⟩
    exact ⟨d, hd, p, hp, ht, ha, h d hd p hp a ha⟩

theorem C4_attached_union_witness :
    (∀ d ∈ [(⟨"S", [("T", ⟨"", ["a"]⟩)], "p"⟩ : PDoc)],
        ∀ p ∈ d.topics, ∀ x ∈ p.2.attached, x ≠ "")
    ∧ (("a" ∈ (getMT (collectAllTopics [(⟨"S", [("T", ⟨"", ["a"]⟩)], "p"⟩ : PDoc)]) "T").attached)
        ↔ ∃ d ∈ [(⟨"S", [("T", ⟨"", ["a"]⟩)], "p"⟩ : PDoc)],
            ∃ p ∈ d.topics, p.1 = "T" ∧ "a" ∈ p.2.attached) :=
  ⟨by decide, C4_attached_union [⟨"S", [("T", ⟨"", ["a"]⟩)], "p"⟩] "T" "a" (by decide)⟩

/-- Claim C5: the end-to-end two-document scenario.  Doc1, titled StockA,
carries a topics section with heading Theme1, the note line, and attached
item SubA; Doc2, titled StockB, carries Theme1 with attached item SubA.
Parsing both and aggregating yields main topic Theme1 with stocks
[StockA, StockB], comment "some note" and attachedUnion [SubA], and
attached topic SubA related to main topic Theme1 and to both stocks. -/
theorem C5_end_to_end :
    collectAllTopics
      [ ⟨(parseMarkdownFile "StockA" "# StockA\n\n## 题材\n\n### Theme1\nsome note\n- SubA\n").1,
          (parseMarkdownFile "StockA" "# StockA\n\n## 题材\n\n### Theme1\nsome note\n- SubA\n").2,
          "StockA.md"⟩,
        ⟨(parseMarkdownFile "StockB" "# StockB\n\n## 题材\n\n### Theme1\n- SubA\n").1,
          (parseMarkdownFile "StockB" "# StockB\n\n## 题材\n\n### Theme1\n- SubA\n").2,
          "StockB.md"⟩ ]
      = ⟨[("Theme1", ⟨["StockA", "StockB"], "some note", ["SubA"]⟩)],
          [("SubA", ["Theme1"])],
          [("SubA", ["StockA", "StockB"])],
          [("StockA", "StockA.md"), ("StockB", "StockB.md")]⟩ := by
  decide

/-- Claim C10: every line of a topics-section body that precedes the
first third-level heading is discarded entirely — processing a body that
starts with any run of heading-free lines gives exactly the result of
processing the remainder, so such lines reach no mention's comment and no
mention's attached names. -/
theorem C10_preheading_discarded (dict : List (String × Mention))
    (pre rest : List (List Char)) (h : ∀ l ∈ pre, topicHeadOf l = none) :
    processBody dict (pre ++ rest) = processBody dict rest := by
  unfold processBody
  rw [List.foldl_append, foldl_stepLine_no_cur pre ⟨"", [], [], false, dict⟩ rfl h]

theorem C10_preheading_discarded_witness :
    (∀ l ∈ ["preamble".toList, "- pre".toList], topicHeadOf l = none)
    ∧ processBody [] (["preamble".toList, "- pre".toList] ++ ["### T".toList, "note".toList])
        = processBody [] ["### T".toList, "note".toList] :=
  ⟨by decide,
    C10_preheading_discarded [] ["preamble".toList, "- pre".toList]
      ["### T".toList, "note".toList] (by decide)⟩

/-- Claim C3 counterexample: two documents with distinct identifiers (so
the StockLocator collision exception does not apply) carrying distinct
non-empty comments for the same main topic.  The two input orders are
permutations of each other, yet the merged comments differ, so the
entire output is not identical across the orders. -/
theorem C3_counterexample :
    ([(⟨"S1", [("T", ⟨"A", []⟩)], "p1"⟩ : PDoc), ⟨"S2", [("T", ⟨"B", []⟩)], "p2"⟩].Perm
        [(⟨"S2", [("T", ⟨"B", []⟩)], "p2"⟩ : PDoc), ⟨"S1", [("T", ⟨"A", []⟩)], "p1"⟩])
    ∧ ("S1" : String) ≠ "S2"
    ∧ (getMT (collectAllTopics
        [⟨"S1", [("T", ⟨"A", []⟩)], "p1"⟩, ⟨"S2", [("T", ⟨"B", []⟩)], "p2"⟩]) "T").comment
      = "A\nB"
    ∧ (getMT (collectAllTopics
        [⟨"S2", [("T", ⟨"B", []⟩)], "p2"⟩, ⟨"S1", [("T", ⟨"A", []⟩)], "p1"⟩]) "T").comment
      = "B\nA"
    ∧ ("A\nB" : String) ≠ "B\nA" :=
  ⟨List.Perm.swap _ _ _, by decide, by decide, by decide, by decide⟩

/-- Claim C3 as amended: permuting the parsed-document sequence leaves
every set-valued output unchanged — each main topic's finalized stocks
and attachedUnion lists are identical, and both AttachedTopic mappings
hold the same elements — and leaves every StockLocator entry unchanged
when no two documents share an identifier; only the merged comments (and
locator entries of colliding identifiers) may depend on the order. -/
theorem C3_order_independence (docs₁ docs₂ : List PDoc) (h : docs₁.Perm docs₂) :
    (∀ t, (getMT (collectAllTopics docs₁) t).stocks = (getMT (collectAllTopics docs₂) t).stocks
      ∧ (getMT (collectAllTopics docs₁) t).attached
          = (getMT (collectAllTopics docs₂) t).attached)
    ∧ (∀ a x, x ∈ getATM (collectAllTopics docs₁) a ↔ x ∈ getATM (collectAllTopics docs₂) a)
    ∧ (∀ a x, x ∈ getATS (collectAllTopics docs₁) a ↔ x ∈ getATS (collectAllTopics docs₂) a)
    ∧ ((docs₁.map PDoc.name).Nodup →
        ∀ s, dictGet (collectAllTopics docs₁).stockToPath s
          = dictGet (collectAllTopics docs₂).stockToPath s) := by
  refine ⟨?_, ?_, ?_, fun hs s => stp_lookup_perm docs₁ docs₂ h hs s⟩
  · intro t
    constructor
    · rw [stocks_collect_sortStr, stocks_collect_sortStr]
      refine sortStr_eq_of_mem_iff _ _ (nodup_stocks_acc docs₁ t) (nodup_stocks_acc docs₂ t) ?_
      intro x
      rw [mem_stocks_acc, mem_stocks_acc]
      exact mentionsTopic_perm docs₁ docs₂ h t x
    · refine eq_of_sorted_nodup_mem_iff _ _ (sorted_attached_collect docs₁ t)
        (sorted_attached_collect docs₂ t) (nodup_attached_collect docs₁ t)
        (nodup_attached_collect docs₂ t) ?_
      intro x
      rw [mem_attached_collect, mem_attached_collect]
      exact hasAttached_perm docs₁ docs₂ h t x
  · intro a x
    rw [mem_atm_collect, mem_atm_collect]
    exact hasAttached_perm docs₁ docs₂ h x a
  · intro a x
    rw [mem_ats_collect, mem_ats_collect]
    exact stockHasAttached_perm docs₁ docs₂ h a x

theorem C3_order_independence_witness :
    ((getMT (collectAllTopics
        [(⟨"SA", [("T", ⟨"", ["x"]⟩)], "pa"⟩ : PDoc), ⟨"SB", [("T", ⟨"", ["y"]⟩)], "pb"⟩]) "T").stocks
      = (getMT (collectAllTopics
        [(⟨"SB", [("T", ⟨"", ["y"]⟩)], "pb"⟩ : PDoc), ⟨"SA", [("T", ⟨"", ["x"]⟩)], "pa"⟩]) "T").stocks)
    ∧ (dictGet (collectAllTopics
        [(⟨"SA", [("T", ⟨"", ["x"]⟩)], "pa"⟩ : PDoc), ⟨"SB", [("T", ⟨"", ["y"]⟩)], "pb"⟩]).stockToPath "SA"
      = dictGet (collectAllTopics
        [(⟨"SB", [("T", ⟨"", ["y"]⟩)], "pb"⟩ : PDoc), ⟨"SA", [("T", ⟨"", ["x"]⟩)], "pa"⟩]).stockToPath "SA") := by
  have h := C3_order_independence
    [⟨"SA", [("T", ⟨"", ["x"]⟩)], "pa"⟩, ⟨"SB", [("T", ⟨"", ["y"]⟩)], "pb"⟩]
    [⟨"SB", [("T", ⟨"", ["y"]⟩)], "pb"⟩, ⟨"SA", [("T", ⟨"", ["x"]⟩)], "pa"⟩]
    (List.Perm.swap _ _ _)
  exact ⟨(h.1 "T").1, h.2.2.2 (by decide) "SA"⟩

/-- Claim C6: permuting the discovery order of the parsed documents
changes neither the contents nor the serialized order of any main topic's
stocks and attachedUnion: the finalized lists are equal as lists across
the two runs, and both are lexicographically sorted sequences. -/
theorem C6_sorted_sets (docs₁ docs₂ : List PDoc) (h : docs₁.Perm docs₂) (t : String) :
    (getMT (collectAllTopics docs₁) t).stocks = (getMT (collectAllTopics docs₂) t).stocks
    ∧ (getMT (collectAllTopics docs₁) t).attached = (getMT (collectAllTopics docs₂) t).attached
    ∧ ((getMT (collectAllTopics docs₁) t).stocks).Sorted (· ≤ ·)
    ∧ ((getMT (collectAllTopics docs₁) t).attached).Sorted (· ≤ ·) := by
  refine ⟨?_, ?_, sorted_le_of_sorted_strLeB _ (sorted_stocks_collect docs₁ t),
    sorted_le_of_sorted_strLeB _ (sorted_attached_collect docs₁ t)⟩
  · rw [stocks_collect_sortStr, stocks_collect_sortStr]
    refine sortStr_eq_of_mem_iff _ _ (nodup_stocks_acc docs₁ t) (nodup_stocks_acc docs₂ t) ?_
    intro x
    rw [mem_stocks_acc, mem_stocks_acc]
    exact mentionsTopic_perm docs₁ docs₂ h t x
  · refine eq_of_sorted_nodup_mem_iff _ _ (sorted_attached_collect docs₁ t)
      (sorted_attached_collect docs₂ t) (nodup_attached_collect docs₁ t)
      (nodup_attached_collect docs₂ t) ?_
    intro x
    rw [mem_attached_collect, mem_attached_collect]
    exact hasAttached_perm docs₁ docs₂ h t x

theorem C6_sorted_sets_witness :
    ((getMT (collectAllTopics
        [(⟨"SB", [("T", ⟨"", ["y"]⟩)], "pb"⟩ : PDoc), ⟨"SA", [("T", ⟨"", ["x"]⟩)], "pa"⟩]) "T").stocks
      = (getMT (collectAllTopics
        [(⟨"SA", [("T", ⟨"", ["x"]⟩)], "pa"⟩ : PDoc), ⟨"SB", [("T", ⟨"", ["y"]⟩)], "pb"⟩]) "T").stocks)
    ∧ ((getMT (collectAllTopics
        [(⟨"SB", [("T", ⟨"", ["y"]⟩)], "pb"⟩ : PDoc), ⟨"SA", [("T", ⟨"", ["x"]⟩)], "pa"⟩]) "T").stocks).Sorted (· ≤ ·) := by
  have h := C6_sorted_sets
    [⟨"SB", [("T", ⟨"", ["y"]⟩)], "pb"⟩, ⟨"SA", [("T", ⟨"", ["x"]⟩)], "pa"⟩]
    [⟨"SA", [("T", ⟨"", ["x"]⟩)], "pa"⟩, ⟨"SB", [("T", ⟨"", ["y"]⟩)], "pb"⟩]
    (List.Perm.swap _ _ _) "T"
  exact ⟨h.1, h.2.2.1⟩

/-- Claim C7: in a rendered main-topic document, every stock of the
(sorted) stock list that has a StockLocator entry is rendered as a link
into that stock's source document whose fragment anchor is the topic name
with every space and every underscore replaced by the dash separator, and
every stock without a locator entry is rendered as plain unlinked text. -/
theorem C7_stock_link_rendering (t : String) (info : MTOut) (stp : List (String × String)) :
    mainTopicContent t info stp
      = "# " ++ t ++ "\n\n"
        ++ (if info.stocks.isEmpty then ""
            else "## 股票列表\n\n"
              ++ String.join (info.stocks.map (fun stock =>
                  match dictGet stp stock with
                  | some p =>
                    "- [" ++ stock ++ "](../../stocks/" ++ p ++ "#" ++ anchorSpec t ++ ")\n"
                  | none => "- " ++ stock ++ "\n"))
              ++ "\n")
        ++ (if info.attached.isEmpty then ""
            else "## 附带题材\n\n"
              ++ String.join (info.attached.map
                  (fun a => "- [" ++ a ++ "](../附带题材/" ++ a ++ ".md)\n"))
              ++ "\n") := by
  have hline : stockLine t stp = (fun stock =>
      match dictGet stp stock with
      | some p => "- [" ++ stock ++ "](../../stocks/" ++ p ++ "#" ++ anchorSpec t ++ ")\n"
      | none => "- " ++ stock ++ "\n") := by
    funext stock
    unfold stockLine
    rw [anchorOf_eq_spec]
  unfold mainTopicContent
  rw [hline]

/-- Claim C8: a document with no second-level section titled with the
reserved topics label, and likewise one whose topics sections contain no
third-level heading, parses to an empty topic mapping; absence of the
section or of headings is not an error. -/
theorem C8_missing_section_ok (stem content : String)
    (h : ∀ sec ∈ sectionsOf content.toList,
        sec.all (fun l => isBlankCL l) = true
        ∨ pyStripCL (sec.headD []) ≠ reservedLabel
        ∨ ∀ l ∈ sec.tail, topicHeadOf l = none) :
    (parseMarkdownFile stem content).2 = [] := by
  show parseTopicsCL content.toList = []
  unfold parseTopicsCL
  have hone : ∀ (sec : List (List Char)) (dict : List (String × Mention)),
      (sec.all (fun l => isBlankCL l) = true
        ∨ pyStripCL (sec.headD []) ≠ reservedLabel
        ∨ ∀ l ∈ sec.tail, topicHeadOf l = none) →
      processSection dict sec = dict := by
    intro sec dict hsec
    unfold processSection
    by_cases hb : sec.all (fun l => isBlankCL l) = true
    · rw [if_pos hb]
    · rw [if_neg hb]
      rcases hsec with hsec | hsec | hsec
      · exact absurd hsec hb
      · rw [if_neg hsec]
      · by_cases ht : pyStripCL (sec.headD []) = reservedLabel
        · rw [if_pos ht]
          unfold processBody
          rw [foldl_stepLine_no_cur sec.tail ⟨"", [], [], false, dict⟩ rfl hsec]
          rfl
        · rw [if_neg ht]
  have hfold : ∀ (secs : List (List (List Char))) (dict : List (String × Mention)),
      (∀ sec ∈ secs,
        sec.all (fun l => isBlankCL l) = true
        ∨ pyStripCL (sec.headD []) ≠ reservedLabel
        ∨ ∀ l ∈ sec.tail, topicHeadOf l = none) →
      secs.foldl processSection dict = dict := by
    intro secs
    induction secs with
    | nil => intro dict _; rfl
    | cons sec rest ih =>
      intro dict hsecs
      rw [List.foldl_cons, hone sec dict (hsecs sec (List.mem_cons_self _ _))]
      exact ih dict fun s hs => hsecs s (List.mem_cons_of_mem _ hs)
  exact hfold _ [] h

theorem C8_missing_section_witness :
    (∀ sec ∈ sectionsOf ("# A\nhello" : String).toList,
        sec.all (fun l => isBlankCL l) = true
        ∨ pyStripCL (sec.headD []) ≠ reservedLabel
        ∨ ∀ l ∈ sec.tail, topicHeadOf l = none)
    ∧ (parseMarkdownFile "s" "# A\nhello").2 = [] :=
  ⟨by decide, C8_missing_section_ok "s" "# A\nhello" (by decide)⟩

/-- Claim C9: the aggregated output has no orphan entities.  Every
main-topic entry holds at least one stock.  The attached-to-main and
attached-to-stocks mappings carry exactly the same keys, each with a
non-empty set.  Consequently every rendered attached-topic document
contains both its related-main-topics section and its related-stocks
section. -/
theorem C9_no_orphans (docs : List PDoc) :
    (∀ t mt, dictGet (collectAllTopics docs).mainTopics t = some mt → mt.stocks ≠ [])
    ∧ (∀ a, (dictGet (collectAllTopics docs).attachedToMain a).isSome
        ↔ (dictGet (collectAllTopics docs).attachedToStocks a).isSome)
    ∧ (∀ a l, dictGet (collectAllTopics docs).attachedToMain a = some l → l ≠ [])
    ∧ (∀ a l, dictGet (collectAllTopics docs).attachedToStocks a = some l → l ≠ [])
    ∧ (∀ a mts, dictGet (collectAllTopics docs).attachedToMain a = some mts →
        ∃ u v, attachedTopicContent a mts
            (dictGetD (collectAllTopics docs).attachedToStocks a [])
            (collectAllTopics docs).stockToPath
          = "# " ++ a ++ "\n\n" ++ ("## 相关主题材\n\n" ++ u ++ "\n")
            ++ ("## 相关股票\n\n" ++ v)) := by
  have hmain := foldState_stocksInv docs emptyAgg
    (fun t' mt' hmt => by simp [emptyAgg, dictGet] at hmt)
  have hkeys := foldState_keysInv docs emptyAgg
    (fun a' => ⟨Iff.rfl,
      fun l hl => by simp [emptyAgg, dictGet] at hl,
      fun l hl => by simp [emptyAgg, dictGet] at hl⟩)
  refine ⟨?_, fun a => (hkeys a).1, fun a => (hkeys a).2.1, fun a => (hkeys a).2.2, ?_⟩
  · intro t mtO hmt
    have hmt' : (dictGet (foldState docs).mainTopics t).map finalizeMT = some mtO := by
      rw [← dictGet_map_finalize]
      exact hmt
    rcases hacc : dictGet (foldState docs).mainTopics t with _ | mt
    · rw [hacc] at hmt'
      cases hmt'
    · rw [hacc] at hmt'
      have hfin := Option.some.inj hmt'
      have hne := hmain t mt hacc
      rw [← hfin]
      show sortStr mt.stocks ≠ []
      intro hnil
      have hperm := perm_sortStr mt.stocks
      rw [hnil] at hperm
      exact hne hperm.nil_eq.symm
  · intro a mts hmts
    have hsome : (dictGet (List.foldl foldDoc emptyAgg docs).attachedToStocks a).isSome :=
      (hkeys a).1.mp (by rw [show dictGet (List.foldl foldDoc emptyAgg docs).attachedToMain a
        = dictGet (collectAllTopics docs).attachedToMain a from rfl, hmts]; rfl)
    obtain ⟨sts, hsts⟩ := Option.isSome_iff_exists.mp hsome
    have hmts_ne : mts ≠ [] := (hkeys a).2.1 mts hmts
    have hsts_ne : sts ≠ [] := (hkeys a).2.2 sts hsts
    have hgetd : dictGetD (collectAllTopics docs).attachedToStocks a [] = sts := by
      unfold dictGetD
      rw [show dictGet (collectAllTopics docs).attachedToStocks a
        = dictGet (List.foldl foldDoc emptyAgg docs).attachedToStocks a from rfl, hsts]
      rfl
    rw [hgetd]
    refine ⟨String.join ((sortStr mts).map
        (fun m => "- [" ++ m ++ "](../主题材/" ++ m ++ ".md)\n")),
      String.join ((sortStr sts).map (attachedStockLine (collectAllTopics docs).stockToPath)),
      ?_⟩
    unfold attachedTopicContent
    rw [if_neg (fun hh => hmts_ne (List.isEmpty_iff.mp hh)),
      if_neg (fun hh => hsts_ne (List.isEmpty_iff.mp hh))]

theorem C9_no_orphans_witness :
    ∃ u v, attachedTopicContent "a" ["T"]
        (dictGetD (collectAllTopics
          [(⟨"S", [("T", ⟨"", ["a"]⟩)], "p"⟩ : PDoc)]).attachedToStocks "a" [])
        (collectAllTopics [(⟨"S", [("T", ⟨"", ["a"]⟩)], "p"⟩ : PDoc)]).stockToPath
      = "# " ++ "a" ++ "\n\n" ++ ("## 相关主题材\n\n" ++ u ++ "\n")
        ++ ("## 相关股票\n\n" ++ v) := by
  obtain ⟨-, -, -, -, h5⟩ := C9_no_orphans [⟨"S", [("T", ⟨"", ["a"]⟩)], "p"⟩]
  exact h5 "a" ["T"] (by decide)

end StockTopics
